import Mathlib

/-!
Verification of the template/constraint layer of a counterexample-guided
synthesizer of modal-logic axiomatizations (repository rod-lin/logic-synthesis).

The development shallowly embeds the data model and the operations of
src/synthesis/fol/language.py, src/synthesis/fol/syntax.py,
src/synthesis/fol/templates/formula.py and the driver of
src/examples/axiomatization.py, and settles the specification claims about
them.

The SMT backend is modelled by a small deep embedding of the backend terms
the embedded code actually produces (boolean constants, conjunction,
disjunction, integer-variable comparisons) together with an evaluation
function under an integer model.  Backend symbols are identified by natural
number ids; a solver model is a function from ids to integers.
-/

set_option maxHeartbeats 1000000

/-! ## Backend (SMT facade) -/

/- A backend term, as produced by the constraint-emitting code paths of the
repository: boolean constants, variadic conjunction and disjunction, equality
of an integer symbol with a constant, and the two bound comparisons used by
the bounded integer variables. -/
mutual
inductive SMTTerm : Type where
  | tt : SMTTerm
  | ff : SMTTerm
  | eqConst : Nat → Int → SMTTerm
  | leCV : Int → Nat → SMTTerm
  | leVC : Nat → Int → SMTTerm
  | andN : SMTList → SMTTerm
  | orN : SMTList → SMTTerm

inductive SMTList : Type where
  | nil : SMTList
  | cons : SMTTerm → SMTList → SMTList
end

namespace SMTList

def append : SMTList → SMTList → SMTList
  | .nil, l => l
  | .cons t ts, l => .cons t (append ts l)

def ofList : List SMTTerm → SMTList
  | [] => .nil
  | t :: ts => .cons t (ofList ts)

end SMTList

/- Evaluation of a backend term under a model assigning an integer to every
backend symbol id. -/
mutual
def SMTTerm.eval (ν : Nat → Int) : SMTTerm → Bool
  | .tt => true
  | .ff => false
  | .eqConst i k => ν i == k
  | .leCV k i => k ≤ ν i
  | .leVC i k => ν i ≤ k
  | .andN ts => SMTList.evalAll ν ts
  | .orN ts => SMTList.evalAny ν ts

def SMTList.evalAll (ν : Nat → Int) : SMTList → Bool
  | .nil => true
  | .cons t ts => SMTTerm.eval ν t && SMTList.evalAll ν ts

def SMTList.evalAny (ν : Nat → Int) : SMTList → Bool
  | .nil => false
  | .cons t ts => SMTTerm.eval ν t || SMTList.evalAny ν ts
end

@[simp] theorem SMTTerm.eval_tt (ν : Nat → Int) : SMTTerm.eval ν .tt = true := rfl

@[simp] theorem SMTTerm.eval_ff (ν : Nat → Int) : SMTTerm.eval ν .ff = false := rfl

@[simp] theorem SMTTerm.eval_eqConst (ν : Nat → Int) (i : Nat) (k : Int) :
    SMTTerm.eval ν (.eqConst i k) = (ν i == k) := rfl

@[simp] theorem SMTTerm.eval_andN (ν : Nat → Int) (ts : SMTList) :
    SMTTerm.eval ν (.andN ts) = SMTList.evalAll ν ts := rfl

@[simp] theorem SMTTerm.eval_orN (ν : Nat → Int) (ts : SMTList) :
    SMTTerm.eval ν (.orN ts) = SMTList.evalAny ν ts := rfl

@[simp] theorem SMTList.evalAll_nil (ν : Nat → Int) : SMTList.evalAll ν .nil = true := rfl

@[simp] theorem SMTList.evalAll_cons (ν : Nat → Int) (t : SMTTerm) (ts : SMTList) :
    SMTList.evalAll ν (.cons t ts) = (SMTTerm.eval ν t && SMTList.evalAll ν ts) := rfl

@[simp] theorem SMTList.evalAny_nil (ν : Nat → Int) : SMTList.evalAny ν .nil = false := rfl

@[simp] theorem SMTList.evalAny_cons (ν : Nat → Int) (t : SMTTerm) (ts : SMTList) :
    SMTList.evalAny ν (.cons t ts) = (SMTTerm.eval ν t || SMTList.evalAny ν ts) := rfl

@[simp] theorem SMTList.evalAll_append (ν : Nat → Int) :
    ∀ (l1 l2 : SMTList),
      SMTList.evalAll ν (SMTList.append l1 l2) =
        (SMTList.evalAll ν l1 && SMTList.evalAll ν l2)
  | .nil, l2 => by simp [SMTList.append]
  | .cons t ts, l2 => by
      simp [SMTList.append, SMTList.evalAll_append ν ts l2, Bool.and_assoc]

@[simp] theorem SMTList.evalAny_ofList (ν : Nat → Int) (l : List SMTTerm) :
    SMTList.evalAny ν (SMTList.ofList l) = l.any (SMTTerm.eval ν) := by
  induction l with
  | nil => simp [SMTList.ofList]
  | cons t ts ih => simp [SMTList.ofList, ih]

@[simp] theorem SMTList.evalAll_ofList (ν : Nat → Int) (l : List SMTTerm) :
    SMTList.evalAll ν (SMTList.ofList l) = l.all (SMTTerm.eval ν) := by
  induction l with
  | nil => simp [SMTList.ofList]
  | cons t ts ih => simp [SMTList.ofList, ih]

/-- Modelled from the spec: the BoundedIntegerVariable(lo, hi) building block
of synthesis/template.py (not included under src/) owns a backend integer
symbol constrained to lo ≤ n ≤ hi and offers equals(k), get_from_smt_model
and get_range. -/
structure BoundedIntegerVariable : Type where
  id : Nat
  lo : Int
  hi : Int
deriving DecidableEq

namespace BoundedIntegerVariable

/-- Modelled from the spec: constraint lo ≤ n ≤ hi on the owned symbol. -/
def get_constraint (b : BoundedIntegerVariable) : SMTTerm :=
  .andN (.cons (.leCV b.lo b.id) (.cons (.leVC b.id b.hi) .nil))

/-- Modelled from the spec: equals(k) compares the owned symbol with k. -/
def equalsT (b : BoundedIntegerVariable) (k : Int) : SMTTerm :=
  .eqConst b.id k

/-- Modelled from the spec: extract the integer value of the owned symbol
from a solver model. -/
def get_from_smt_model (b : BoundedIntegerVariable) (ν : Nat → Int) : Int :=
  ν b.id

/-- Modelled from the spec: the list of values lo, lo+1, ..., hi. -/
def get_range (b : BoundedIntegerVariable) : List Int :=
  (List.range (b.hi - b.lo + 1).toNat).map (fun i => b.lo + i)

end BoundedIntegerVariable

/-! ## Generic helpers: python-style indexing, index enumeration -/

/-- Python tuple indexing: a negative index wraps around once; an index out
of range raises (None here). -/
def pyGet {α : Type} (l : List α) (i : Int) : Option α :=
  let j := if i < 0 then i + l.length else i
  if 0 ≤ j ∧ j < l.length then l.get? j.toNat else none

theorem pyGet_ofNat {α : Type} (l : List α) (j : Nat) (h : j < l.length) :
    pyGet l (j : Int) = l[j]? := by
  simp only [pyGet]
  have h0 : ¬ ((j : Int) < 0) := by omega
  rw [if_neg h0]
  have h1 : (0 : Int) ≤ (j : Int) ∧ (j : Int) < l.length := by
    constructor <;> omega
  rw [if_pos h1]
  simp

/-- Index-value pairs of a list, indices starting at n (models python
enumerate with the value first kept alongside its index). -/
def enumFromL {α : Type} (n : Nat) : List α → List (Nat × α)
  | [] => []
  | a :: as => (n, a) :: enumFromL (n + 1) as

def enumL {α : Type} (l : List α) : List (Nat × α) := enumFromL 0 l

theorem mem_enumFromL {α : Type} {n j : Nat} {a : α} {l : List α} :
    (j, a) ∈ enumFromL n l ↔ ∃ i, j = n + i ∧ l[i]? = some a := by
  induction l generalizing n with
  | nil => simp [enumFromL]
  | cons b bs ih =>
    simp only [enumFromL, List.mem_cons, ih, Prod.mk.injEq]
    constructor
    · rintro (⟨hj, hb⟩ | ⟨i, hi, hg⟩)
      · exact ⟨0, by omega, by simp [hb]⟩
      · exact ⟨i + 1, by omega, by simpa using hg⟩
    · rintro ⟨i, hi, hg⟩
      cases i with
      | zero => left; simp at hg; exact ⟨by omega, hg.symm⟩
      | succ i => right; exact ⟨i, by omega, by simpa using hg⟩

theorem mem_enumL {α : Type} {j : Nat} {a : α} {l : List α} :
    (j, a) ∈ enumL l ↔ l[j]? = some a := by
  simp only [enumL, mem_enumFromL]
  constructor
  · rintro ⟨i, hi, hg⟩
    have hji : j = i := by omega
    exact hji ▸ hg
  · intro h
    exact ⟨j, by omega, h⟩

theorem mem_of_lookup {α : Type} {l : List α} {j : Nat} {a : α}
    (h : l[j]? = some a) : a ∈ l := by
  obtain ⟨hlt, he⟩ := List.getElem?_eq_some.mp h
  exact he ▸ List.getElem_mem hlt

/-- First index of an element in a list (python list.index; callers guard
membership beforehand). -/
def indexOfL {α : Type} [DecidableEq α] (a : α) : List α → Nat
  | [] => 0
  | b :: bs => if b = a then 0 else indexOfL a bs + 1

theorem indexOfL_of_nodup {α : Type} [DecidableEq α] {l : List α} {j : Nat} {a : α}
    (hnd : l.Nodup) (hj : l[j]? = some a) : indexOfL a l = j := by
  induction l generalizing j with
  | nil => simp at hj
  | cons b bs ih =>
    rcases List.nodup_cons.mp hnd with ⟨hb, hnd2⟩
    cases j with
    | zero =>
      simp at hj
      simp [indexOfL, hj]
    | succ j =>
      simp at hj
      have hne : b ≠ a := by
        intro h
        subst h
        exact hb (mem_of_lookup hj)
      simp [indexOfL, hne, ih hnd2 hj]

/-! ## Many-sorted language (src/synthesis/fol/language.py) -/

/-- A sort: a name optionally paired with a backend sort hint (hints are
identified by number; dataclass equality compares name and hint). -/
structure SortS : Type where
  name : String
  smt_hook : Option Nat := none
deriving DecidableEq

/-- A function symbol; the optional smt_hook (a backend function, identified
by number here) fixes its interpretation. -/
structure FunctionSymbol : Type where
  input_sorts : List SortS
  output_sort : SortS
  name : String
  smt_hook : Option Nat := none
deriving DecidableEq

/-- A relation symbol. -/
structure RelationSymbol : Type where
  input_sorts : List SortS
  name : String
  smt_hook : Option Nat := none
deriving DecidableEq

/-- A many-sorted language. -/
structure FOLanguage : Type where
  sorts : List SortS
  function_symbols : List FunctionSymbol
  relation_symbols : List RelationSymbol
deriving DecidableEq

namespace FOLanguage

def get_sort (l : FOLanguage) (name : String) : Option SortS :=
  l.sorts.find? (fun s => s.name = name)

def get_function_symbol (l : FOLanguage) (name : String) : Option FunctionSymbol :=
  l.function_symbols.find? (fun s => s.name = name)

def get_relation_symbol (l : FOLanguage) (name : String) : Option RelationSymbol :=
  l.relation_symbols.find? (fun s => s.name = name)

/-- max(tuple(len(symbol.input_sorts) for symbol in self.function_symbols) + (0,)) -/
def get_max_function_arity (l : FOLanguage) : Nat :=
  (l.function_symbols.map (fun f => f.input_sorts.length)).foldr max 0

def get_max_relation_arity (l : FOLanguage) : Nat :=
  (l.relation_symbols.map (fun r => r.input_sorts.length)).foldr max 0

/-- FOLanguage.expand: asserts that no sort, function symbol or relation symbol
of the other language is already a member (by dataclass equality) of this
language, then concatenates componentwise; a failed assert raises (None). -/
def expand (l : FOLanguage) (other : FOLanguage) : Option FOLanguage :=
  if (∀ s ∈ other.sorts, ¬ s ∈ l.sorts) ∧
     (∀ f ∈ other.function_symbols, ¬ f ∈ l.function_symbols) ∧
     (∀ r ∈ other.relation_symbols, ¬ r ∈ l.relation_symbols) then
    some ⟨l.sorts ++ other.sorts,
          l.function_symbols ++ other.function_symbols,
          l.relation_symbols ++ other.relation_symbols⟩
  else
    none

end FOLanguage

theorem le_foldr_max {l : List Nat} {n : Nat} (h : n ∈ l) : n ≤ l.foldr max 0 := by
  induction l with
  | nil => simp at h
  | cons m ms ih =>
    rcases List.mem_cons.mp h with h | h
    · subst h; simp [Nat.le_max_left]
    · simp only [List.foldr_cons]
      exact le_trans (ih h) (Nat.le_max_right _ _)

theorem arity_le_max_function_arity {l : FOLanguage} {f : FunctionSymbol}
    (h : f ∈ l.function_symbols) :
    f.input_sorts.length ≤ l.get_max_function_arity :=
  le_foldr_max (List.mem_map_of_mem _ h)

theorem arity_le_max_relation_arity {l : FOLanguage} {r : RelationSymbol}
    (h : r ∈ l.relation_symbols) :
    r.input_sorts.length ≤ l.get_max_relation_arity :=
  le_foldr_max (List.mem_map_of_mem _ h)

/-! ## First-order syntax (src/synthesis/fol/syntax.py) -/

/-- A first-order variable (name, sort). -/
structure Variable : Type where
  name : String
  sort : SortS
deriving DecidableEq

/- Concrete first-order terms: a variable or an application of a function
symbol to argument terms. -/
mutual
inductive FOTerm : Type where
  | var : Variable → FOTerm
  | app : FunctionSymbol → FOTermList → FOTerm

inductive FOTermList : Type where
  | nil : FOTermList
  | cons : FOTerm → FOTermList → FOTermList
end

namespace FOTermList

def length : FOTermList → Nat
  | .nil => 0
  | .cons _ ts => length ts + 1

end FOTermList

/-- A substitution: a finite mapping from variables to concrete terms,
modelled as an association list (first match wins, as in a python dict). -/
abbrev SubstMap : Type := List (Variable × FOTerm)

def slookup (σ : SubstMap) (v : Variable) : Option FOTerm :=
  match σ with
  | [] => none
  | (k, t) :: rest => if k = v then some t else slookup rest v

/-- The dict comprehension removing one key:
a copy of σ without the entries whose key is x. -/
def removeKey (σ : SubstMap) (x : Variable) : SubstMap :=
  match σ with
  | [] => []
  | (k, t) :: rest => if k = x then removeKey rest x else (k, t) :: removeKey rest x

/- Substitution on concrete terms: Variable.substitute returns the mapped
term when the variable is a key, otherwise the variable; Application maps
over the arguments. -/
mutual
def substT (σ : SubstMap) : FOTerm → FOTerm
  | .var v =>
    match slookup σ v with
    | some t => t
    | none => .var v
  | .app f args => .app f (substTL σ args)

def substTL (σ : SubstMap) : FOTermList → FOTermList
  | .nil => .nil
  | .cons t ts => .cons (substT σ t) (substTL σ ts)
end

/- Free variables of concrete terms. -/
mutual
def freeVarsT : FOTerm → Finset Variable
  | .var v => {v}
  | .app _ args => freeVarsTL args

def freeVarsTL : FOTermList → Finset Variable
  | .nil => ∅
  | .cons t ts => freeVarsT t ∪ freeVarsTL ts
end

/- Term.get_constraint on concrete terms: TRUE for a variable, the
conjunction of the argument constraints for an application. -/
mutual
def termGetConstraint : FOTerm → SMTTerm
  | .var _ => .tt
  | .app _ args => .andN (termListGetConstraint args)

def termListGetConstraint : FOTermList → SMTList
  | .nil => .nil
  | .cons t ts => .cons (termGetConstraint t) (termListGetConstraint ts)
end

/-- Term.get_from_smt_model on concrete terms returns the term itself
(Variable and Application both return self). -/
def termGetFromModel (t : FOTerm) (_ν : Nat → Int) : FOTerm := t

/-- Concrete first-order formulas. -/
inductive FOFormula : Type where
  | verum : FOFormula
  | falsum : FOFormula
  | rel : RelationSymbol → FOTermList → FOFormula
  | conj : FOFormula → FOFormula → FOFormula
  | disj : FOFormula → FOFormula → FOFormula
  | neg : FOFormula → FOFormula
  | impl : FOFormula → FOFormula → FOFormula
  | equiv : FOFormula → FOFormula → FOFormula
  | all : Variable → FOFormula → FOFormula
  | ex : Variable → FOFormula → FOFormula

/-- Quantifiers remove their bound variable from the substitution (only when
it is a key) before recursing; no renaming is performed. -/
def substF (σ : SubstMap) : FOFormula → FOFormula
  | .verum => .verum
  | .falsum => .falsum
  | .rel r args => .rel r (substTL σ args)
  | .conj l r => .conj (substF σ l) (substF σ r)
  | .disj l r => .disj (substF σ l) (substF σ r)
  | .neg f => .neg (substF σ f)
  | .impl l r => .impl (substF σ l) (substF σ r)
  | .equiv l r => .equiv (substF σ l) (substF σ r)
  | .all x body =>
    .all x (substF (if (slookup σ x).isSome then removeKey σ x else σ) body)
  | .ex x body =>
    .ex x (substF (if (slookup σ x).isSome then removeKey σ x else σ) body)

/-- Free variables: unions of the children, minus the bound variable for
quantifiers. -/
def freeVarsF : FOFormula → Finset Variable
  | .verum => ∅
  | .falsum => ∅
  | .rel _ args => freeVarsTL args
  | .conj l r => freeVarsF l ∪ freeVarsF r
  | .disj l r => freeVarsF l ∪ freeVarsF r
  | .neg f => freeVarsF f
  | .impl l r => freeVarsF l ∪ freeVarsF r
  | .equiv l r => freeVarsF l ∪ freeVarsF r
  | .all x body => freeVarsF body \ {x}
  | .ex x body => freeVarsF body \ {x}

/-- Variables bound by some quantifier of the formula. -/
def boundVarsF : FOFormula → Finset Variable
  | .verum => ∅
  | .falsum => ∅
  | .rel _ _ => ∅
  | .conj l r => boundVarsF l ∪ boundVarsF r
  | .disj l r => boundVarsF l ∪ boundVarsF r
  | .neg f => boundVarsF f
  | .impl l r => boundVarsF l ∪ boundVarsF r
  | .equiv l r => boundVarsF l ∪ boundVarsF r
  | .all x body => insert x (boundVarsF body)
  | .ex x body => insert x (boundVarsF body)

/- A computable enumeration of the free variables (used where the python code
iterates over the free-variable set); agrees with the Finset versions. -/
mutual
def freeVarsListT : FOTerm → List Variable
  | .var v => [v]
  | .app _ args => freeVarsListTL args

def freeVarsListTL : FOTermList → List Variable
  | .nil => []
  | .cons t ts => freeVarsListT t ∪ freeVarsListTL ts
end

def freeVarsListF : FOFormula → List Variable
  | .verum => []
  | .falsum => []
  | .rel _ args => freeVarsListTL args
  | .conj l r => freeVarsListF l ∪ freeVarsListF r
  | .disj l r => freeVarsListF l ∪ freeVarsListF r
  | .neg f => freeVarsListF f
  | .impl l r => freeVarsListF l ∪ freeVarsListF r
  | .equiv l r => freeVarsListF l ∪ freeVarsListF r
  | .all x body => (freeVarsListF body).filter (fun v => ¬ v = x)
  | .ex x body => (freeVarsListF body).filter (fun v => ¬ v = x)

/-- Formula.quantify_all_free_variables: wrap the formula in one universal
quantification per free variable (iterating over an enumeration of the
free-variable set). -/
def quantifyAllFreeVariables (φ : FOFormula) : FOFormula :=
  (freeVarsListF φ).foldl (fun f v => .all v f) φ

/-! ## Semantic interpretation (structures modelled from the spec) -/

/-- Modelled from the spec: a Structure (synthesis/fol/semantics.py is not
under src/) interprets each sort by a carrier predicate over a domain D, each
function symbol by a function on D, and each relation symbol by a relation;
the carrier quantifier encodings are the guarded backend quantifiers of spec
section 4.6 (universally_quantify(x, phi) is forall x, in_carrier(x) -> phi,
and dually).  Backend terms are modelled semantically (values in D for terms,
propositions for formulas), which is exactly identification modulo backend
equality. -/
structure SemStructure (D : Type) : Type where
  carrier : SortS → D → Prop
  funcInterp : FunctionSymbol → List D → D
  relInterp : RelationSymbol → List D → Prop

/-- Valuation update ({**valuation, var: value}). -/
def updV {D : Type} (V : Variable → D) (x : Variable) (a : D) : Variable → D :=
  fun v => if v = x then a else V v

/- Interpretation of concrete terms: a variable is looked up in the
valuation; an application interprets its arguments and applies the
structure's function interpretation. -/
mutual
def interpT {D : Type} (M : SemStructure D) (V : Variable → D) : FOTerm → D
  | .var v => V v
  | .app f args => M.funcInterp f (interpTL M V args)

def interpTL {D : Type} (M : SemStructure D) (V : Variable → D) : FOTermList → List D
  | .nil => []
  | .cons t ts => interpT M V t :: interpTL M V ts
end

/-- Interpretation of concrete formulas; quantifiers bind a fresh value of
the carrier of the variable's sort (the carrier-guarded encoding). -/
def interpF {D : Type} (M : SemStructure D) (V : Variable → D) : FOFormula → Prop
  | .verum => True
  | .falsum => False
  | .rel r args => M.relInterp r (interpTL M V args)
  | .conj l r => interpF M V l ∧ interpF M V r
  | .disj l r => interpF M V l ∨ interpF M V r
  | .neg f => ¬ interpF M V f
  | .impl l r => interpF M V l → interpF M V r
  | .equiv l r => interpF M V l ↔ interpF M V r
  | .all x body => ∀ a, M.carrier x.sort a → interpF M (updV V x a) body
  | .ex x body => ∃ a, M.carrier x.sort a ∧ interpF M (updV V x a) body

/-- The composed valuation V ∘ σ: a variable in the domain of σ is sent to
the interpretation of its image under V; other variables keep V. -/
def composeVal {D : Type} (M : SemStructure D) (V : Variable → D) (σ : SubstMap) :
    Variable → D :=
  fun v =>
    match slookup σ v with
    | some t => interpT M V t
    | none => V v

/-! ## Substitution lemmas -/

theorem slookup_mem {σ : SubstMap} {v : Variable} {t : FOTerm}
    (h : slookup σ v = some t) : (v, t) ∈ σ := by
  induction σ with
  | nil => simp [slookup] at h
  | cons p rest ih =>
    obtain ⟨k, u⟩ := p
    by_cases hk : k = v
    · subst hk
      simp [slookup] at h
      subst h
      exact List.mem_cons_self _ _
    · simp [slookup, hk] at h
      exact List.mem_cons_of_mem _ (ih h)

theorem slookup_removeKey_ne {σ : SubstMap} {x v : Variable} (h : v ≠ x) :
    slookup (removeKey σ x) v = slookup σ v := by
  induction σ with
  | nil => simp [slookup, removeKey]
  | cons p rest ih =>
    obtain ⟨k, u⟩ := p
    by_cases hk : k = x
    · subst hk
      have hkv : ¬ (k = v) := fun hh => h hh.symm
      simp [slookup, removeKey, hkv, ih]
    · simp only [removeKey, if_neg hk]
      by_cases hkv : k = v
      · subst hkv
        simp [slookup]
      · simp [slookup, hkv, ih]

theorem slookup_removeKey_self {σ : SubstMap} {x : Variable} :
    slookup (removeKey σ x) x = none := by
  induction σ with
  | nil => simp [slookup, removeKey]
  | cons p rest ih =>
    obtain ⟨k, u⟩ := p
    by_cases hk : k = x
    · subst hk; simpa [removeKey] using ih
    · simp [removeKey, hk, slookup, ih]

theorem removeKey_eq_of_slookup_none {σ : SubstMap} {x : Variable}
    (h : slookup σ x = none) : removeKey σ x = σ := by
  induction σ with
  | nil => simp [removeKey]
  | cons p rest ih =>
    obtain ⟨k, u⟩ := p
    by_cases hk : k = x
    · subst hk; simp [slookup] at h
    · simp [slookup, hk] at h
      simp [removeKey, hk, ih h]

theorem mem_removeKey {σ : SubstMap} {x : Variable} {p : Variable × FOTerm}
    (h : p ∈ removeKey σ x) : p ∈ σ := by
  induction σ with
  | nil => simp [removeKey] at h
  | cons q rest ih =>
    obtain ⟨k, u⟩ := q
    by_cases hk : k = x
    · simp only [removeKey, if_pos hk] at h
      exact List.mem_cons_of_mem _ (ih h)
    · simp only [removeKey, if_neg hk, List.mem_cons] at h
      rcases h with h | h
      · exact h ▸ List.mem_cons_self _ _
      · exact List.mem_cons_of_mem _ (ih h)

/-- The substitution actually used in the body of a quantifier over x:
lookups behave as in σ with x deleted. -/
theorem slookup_qsubst (σ : SubstMap) (x v : Variable) :
    slookup (if (slookup σ x).isSome then removeKey σ x else σ) v =
      (if v = x then none else slookup σ v) := by
  by_cases hvx : v = x
  · subst hvx
    by_cases hs : (slookup σ v).isSome
    · simp [hs, slookup_removeKey_self]
    · rw [if_neg hs, if_pos rfl]
      exact Option.not_isSome_iff_eq_none.mp hs
  · by_cases hs : (slookup σ x).isSome
    · simp [hs, hvx, slookup_removeKey_ne hvx]
    · simp [hs, hvx]

theorem mem_qsubst {σ : SubstMap} {x : Variable} {p : Variable × FOTerm}
    (h : p ∈ (if (slookup σ x).isSome then removeKey σ x else σ)) :
    p ∈ σ := by
  by_cases hs : (slookup σ x).isSome
  · rw [if_pos hs] at h
    exact mem_removeKey h
  · rwa [if_neg hs] at h

/- Free variables of substituted terms stay free in substituted terms
(terms have no binders). -/
mutual
theorem freeStaysFreeT (σ : SubstMap) (v y : Variable) (t : FOTerm)
    (hσ : slookup σ v = some t) (hy : y ∈ freeVarsT t) :
    ∀ u : FOTerm, v ∈ freeVarsT u → y ∈ freeVarsT (substT σ u)
  | .var w, hv => by
      simp only [freeVarsT, Finset.mem_singleton] at hv
      subst hv
      simpa [substT, hσ] using hy
  | .app f args, hv => by
      simp only [freeVarsT, substT] at hv ⊢
      exact freeStaysFreeTL σ v y t hσ hy args hv

theorem freeStaysFreeTL (σ : SubstMap) (v y : Variable) (t : FOTerm)
    (hσ : slookup σ v = some t) (hy : y ∈ freeVarsT t) :
    ∀ us : FOTermList, v ∈ freeVarsTL us → y ∈ freeVarsTL (substTL σ us)
  | .nil, hv => by simp [freeVarsTL] at hv
  | .cons u us, hv => by
      simp only [freeVarsTL, substTL, Finset.mem_union] at hv ⊢
      rcases hv with hv | hv
      · exact Or.inl (freeStaysFreeT σ v y t hσ hy u hv)
      · exact Or.inr (freeStaysFreeTL σ v y t hσ hy us hv)
end

/- Free variables of substituted terms stay free in a substituted formula,
provided the free variable in question is not bound anywhere in the
formula. -/
theorem freeStaysFreeF (φ : FOFormula) :
    ∀ (σ : SubstMap) (v y : Variable) (t : FOTerm),
      slookup σ v = some t → v ∈ freeVarsF φ → y ∈ freeVarsT t →
      y ∉ boundVarsF φ → y ∈ freeVarsF (substF σ φ) := by
  induction φ with
  | verum => intro σ v y t hσ hv hy hb; simp [freeVarsF] at hv
  | falsum => intro σ v y t hσ hv hy hb; simp [freeVarsF] at hv
  | rel r args =>
    intro σ v y t hσ hv hy hb
    simp only [freeVarsF, substF] at hv ⊢
    exact freeStaysFreeTL σ v y t hσ hy args hv
  | conj l r ihl ihr =>
    intro σ v y t hσ hv hy hb
    simp only [freeVarsF, substF, Finset.mem_union] at hv ⊢
    simp only [boundVarsF, Finset.mem_union, not_or] at hb
    rcases hv with hv | hv
    · exact Or.inl (ihl σ v y t hσ hv hy hb.1)
    · exact Or.inr (ihr σ v y t hσ hv hy hb.2)
  | disj l r ihl ihr =>
    intro σ v y t hσ hv hy hb
    simp only [freeVarsF, substF, Finset.mem_union] at hv ⊢
    simp only [boundVarsF, Finset.mem_union, not_or] at hb
    rcases hv with hv | hv
    · exact Or.inl (ihl σ v y t hσ hv hy hb.1)
    · exact Or.inr (ihr σ v y t hσ hv hy hb.2)
  | neg f ih =>
    intro σ v y t hσ hv hy hb
    simp only [freeVarsF, substF] at hv ⊢
    exact ih σ v y t hσ hv hy hb
  | impl l r ihl ihr =>
    intro σ v y t hσ hv hy hb
    simp only [freeVarsF, substF, Finset.mem_union] at hv ⊢
    simp only [boundVarsF, Finset.mem_union, not_or] at hb
    rcases hv with hv | hv
    · exact Or.inl (ihl σ v y t hσ hv hy hb.1)
    · exact Or.inr (ihr σ v y t hσ hv hy hb.2)
  | equiv l r ihl ihr =>
    intro σ v y t hσ hv hy hb
    simp only [freeVarsF, substF, Finset.mem_union] at hv ⊢
    simp only [boundVarsF, Finset.mem_union, not_or] at hb
    rcases hv with hv | hv
    · exact Or.inl (ihl σ v y t hσ hv hy hb.1)
    · exact Or.inr (ihr σ v y t hσ hv hy hb.2)
  | all x body ih =>
    intro σ v y t hσ hv hy hb
    simp only [freeVarsF, Finset.mem_sdiff, Finset.mem_singleton] at hv
    simp only [boundVarsF, Finset.mem_insert, not_or] at hb
    have hσ1 :
        slookup (if (slookup σ x).isSome then removeKey σ x else σ) v = some t := by
      rw [slookup_qsubst]
      simp [hv.2, hσ]
    have hmem := ih _ v y t hσ1 hv.1 hy hb.2
    simp only [substF, freeVarsF, Finset.mem_sdiff, Finset.mem_singleton]
    exact ⟨hmem, hb.1⟩
  | ex x body ih =>
    intro σ v y t hσ hv hy hb
    simp only [freeVarsF, Finset.mem_sdiff, Finset.mem_singleton] at hv
    simp only [boundVarsF, Finset.mem_insert, not_or] at hb
    have hσ1 :
        slookup (if (slookup σ x).isSome then removeKey σ x else σ) v = some t := by
      rw [slookup_qsubst]
      simp [hv.2, hσ]
    have hmem := ih _ v y t hσ1 hv.1 hy hb.2
    simp only [substF, freeVarsF, Finset.mem_sdiff, Finset.mem_singleton]
    exact ⟨hmem, hb.1⟩

/- Interpretation of a term depends only on the valuation at its free
variables. -/
mutual
theorem interpT_congr {D : Type} (M : SemStructure D) (V1 V2 : Variable → D) :
    ∀ t : FOTerm, (∀ v ∈ freeVarsT t, V1 v = V2 v) → interpT M V1 t = interpT M V2 t
  | .var v, h => by
      simp only [interpT]
      exact h v (by simp [freeVarsT])
  | .app f args, h => by
      simp only [interpT]
      rw [interpTL_congr M V1 V2 args (by simpa [freeVarsT] using h)]

theorem interpTL_congr {D : Type} (M : SemStructure D) (V1 V2 : Variable → D) :
    ∀ ts : FOTermList, (∀ v ∈ freeVarsTL ts, V1 v = V2 v) →
      interpTL M V1 ts = interpTL M V2 ts
  | .nil, h => rfl
  | .cons t ts, h => by
      simp only [interpTL]
      rw [interpT_congr M V1 V2 t (fun v hv => h v (by simp [freeVarsTL, hv])),
          interpTL_congr M V1 V2 ts (fun v hv => h v (by simp [freeVarsTL, hv]))]
end

/- Substitution commutes with interpretation on terms, unconditionally. -/
mutual
theorem interpT_substT {D : Type} (M : SemStructure D) (V : Variable → D) (σ : SubstMap) :
    ∀ t : FOTerm, interpT M V (substT σ t) = interpT M (composeVal M V σ) t
  | .var v => by
      simp only [substT, interpT, composeVal]
      cases hl : slookup σ v with
      | none => simp [interpT]
      | some t => simp
  | .app f args => by
      simp only [substT, interpT]
      rw [interpTL_substTL M V σ args]

theorem interpTL_substTL {D : Type} (M : SemStructure D) (V : Variable → D) (σ : SubstMap) :
    ∀ ts : FOTermList, interpTL M V (substTL σ ts) = interpTL M (composeVal M V σ) ts
  | .nil => rfl
  | .cons t ts => by
      simp only [substTL, interpTL]
      rw [interpT_substT M V σ t, interpTL_substTL M V σ ts]
end

/- Substitution commutes with interpretation on formulas whenever no bound
variable of the formula occurs free in a term of the substitution's range. -/
theorem interpF_substF {D : Type} (M : SemStructure D) (φ : FOFormula) :
    ∀ (σ : SubstMap) (V : Variable → D),
      (∀ y ∈ boundVarsF φ, ∀ p ∈ σ, y ∉ freeVarsT p.2) →
      (interpF M V (substF σ φ) ↔ interpF M (composeVal M V σ) φ) := by
  induction φ with
  | verum => intro σ V h; simp [substF, interpF]
  | falsum => intro σ V h; simp [substF, interpF]
  | rel r args =>
    intro σ V h
    simp only [substF, interpF]
    rw [interpTL_substTL M V σ args]
  | conj l r ihl ihr =>
    intro σ V h
    simp only [boundVarsF, Finset.mem_union] at h
    simp only [substF, interpF]
    exact and_congr (ihl σ V (fun y hy => h y (Or.inl hy)))
      (ihr σ V (fun y hy => h y (Or.inr hy)))
  | disj l r ihl ihr =>
    intro σ V h
    simp only [boundVarsF, Finset.mem_union] at h
    simp only [substF, interpF]
    exact or_congr (ihl σ V (fun y hy => h y (Or.inl hy)))
      (ihr σ V (fun y hy => h y (Or.inr hy)))
  | neg f ih =>
    intro σ V h
    simp only [substF, interpF]
    exact not_congr (ih σ V h)
  | impl l r ihl ihr =>
    intro σ V h
    simp only [boundVarsF, Finset.mem_union] at h
    simp only [substF, interpF]
    exact imp_congr (ihl σ V (fun y hy => h y (Or.inl hy)))
      (ihr σ V (fun y hy => h y (Or.inr hy)))
  | equiv l r ihl ihr =>
    intro σ V h
    simp only [boundVarsF, Finset.mem_union] at h
    simp only [substF, interpF]
    exact iff_congr (ihl σ V (fun y hy => h y (Or.inl hy)))
      (ihr σ V (fun y hy => h y (Or.inr hy)))
  | all x body ih =>
    intro σ V h
    simp only [substF, interpF]
    apply forall_congr'
    intro a
    apply imp_congr Iff.rfl
    have hbody : ∀ y ∈ boundVarsF body,
        ∀ p ∈ (if (slookup σ x).isSome then removeKey σ x else σ), y ∉ freeVarsT p.2 :=
      fun y hy p hp => h y (by simp [boundVarsF, hy]) p (mem_qsubst hp)
    rw [ih _ (updV V x a) hbody]
    have hval :
        composeVal M (updV V x a) (if (slookup σ x).isSome then removeKey σ x else σ) =
          updV (composeVal M V σ) x a := by
      funext v
      by_cases hvx : v = x
      · subst hvx
        have h1 : slookup (if (slookup σ v).isSome then removeKey σ v else σ) v = none := by
          rw [slookup_qsubst]; simp
        simp [composeVal, h1, updV]
      · cases hl : slookup σ v with
        | some t =>
          have h1 : slookup (if (slookup σ x).isSome then removeKey σ x else σ) v
              = some t := by
            rw [slookup_qsubst]; simp [hvx, hl]
          simp only [composeVal, h1, hl, updV, if_neg hvx]
          apply interpT_congr
          intro w hw
          have hx : x ∉ freeVarsT t :=
            h x (by simp [boundVarsF]) (v, t) (slookup_mem hl)
          have hwx : ¬ (w = x) := fun he => hx (he ▸ hw)
          simp [updV, hwx]
        | none =>
          have h1 : slookup (if (slookup σ x).isSome then removeKey σ x else σ) v
              = none := by
            rw [slookup_qsubst]; simp [hvx, hl]
          simp [composeVal, h1, hl, updV, hvx]
    rw [hval]
  | ex x body ih =>
    intro σ V h
    simp only [substF, interpF]
    apply exists_congr
    intro a
    apply and_congr Iff.rfl
    have hbody : ∀ y ∈ boundVarsF body,
        ∀ p ∈ (if (slookup σ x).isSome then removeKey σ x else σ), y ∉ freeVarsT p.2 :=
      fun y hy p hp => h y (by simp [boundVarsF, hy]) p (mem_qsubst hp)
    rw [ih _ (updV V x a) hbody]
    have hval :
        composeVal M (updV V x a) (if (slookup σ x).isSome then removeKey σ x else σ) =
          updV (composeVal M V σ) x a := by
      funext v
      by_cases hvx : v = x
      · subst hvx
        have h1 : slookup (if (slookup σ v).isSome then removeKey σ v else σ) v = none := by
          rw [slookup_qsubst]; simp
        simp [composeVal, h1, updV]
      · cases hl : slookup σ v with
        | some t =>
          have h1 : slookup (if (slookup σ x).isSome then removeKey σ x else σ) v
              = some t := by
            rw [slookup_qsubst]; simp [hvx, hl]
          simp only [composeVal, h1, hl, updV, if_neg hvx]
          apply interpT_congr
          intro w hw
          have hx : x ∉ freeVarsT t :=
            h x (by simp [boundVarsF]) (v, t) (slookup_mem hl)
          have hwx : ¬ (w = x) := fun he => hx (he ▸ hw)
          simp [updV, hwx]
        | none =>
          have h1 : slookup (if (slookup σ x).isSome then removeKey σ x else σ) v
              = none := by
            rw [slookup_qsubst]; simp [hvx, hl]
          simp [composeVal, h1, hl, updV, hvx]
    rw [hval]

/-! ## Term templates (src/synthesis/fol/templates/formula.py) -/

/- A TermTemplate, as built by the constructor: a language, the tuple of
free variables, a depth bound, an optional target sort, the substitution
mapping (total function model of the dict whose keys are exactly the free
variables; the constructor initializes it to the identity on variables),
the node tag variable, and the child templates (max_function_arity many of
depth one less when depth is nonzero, none otherwise). -/
mutual
inductive TermTemplate : Type where
  | mk : FOLanguage → List Variable → Nat → Option SortS →
         (Variable → FOTerm) → BoundedIntegerVariable → TermList → TermTemplate

inductive TermList : Type where
  | nil : TermList
  | cons : TermTemplate → TermList → TermList
end

def TermList.lengthT : TermList → Nat
  | .nil => 0
  | .cons _ ts => TermList.lengthT ts + 1

namespace TermTemplate

def language : TermTemplate → FOLanguage
  | .mk l _ _ _ _ _ _ => l

def free_vars : TermTemplate → List Variable
  | .mk _ fv _ _ _ _ _ => fv

def depthOf : TermTemplate → Nat
  | .mk _ _ d _ _ _ _ => d

def sortOf : TermTemplate → Option SortS
  | .mk _ _ _ s _ _ _ => s

def substitution : TermTemplate → (Variable → FOTerm)
  | .mk _ _ _ _ su _ _ => su

def node : TermTemplate → BoundedIntegerVariable
  | .mk _ _ _ _ _ n _ => n

def subterms : TermTemplate → TermList
  | .mk _ _ _ _ _ _ ts => ts

end TermTemplate

/- get_is_null_constraint: the subtree starting here does not exist. -/
mutual
def TermTemplate.get_is_null_constraint : TermTemplate → SMTTerm
  | .mk _ _ _ _ _ node subs =>
    .andN (.cons (node.equalsT 0) (isNullList subs))

def isNullList : TermList → SMTList
  | .nil => .nil
  | .cons t ts => .cons (TermTemplate.get_is_null_constraint t) (isNullList ts)
end

/-- The is-null constraints of the subterms from position n on
(subterms[arity:] in the source). -/
def isNullDrop : Nat → TermList → SMTList
  | 0, .nil => .nil
  | 0, .cons t ts => .cons (TermTemplate.get_is_null_constraint t) (isNullDrop 0 ts)
  | _ + 1, .nil => .nil
  | n + 1, .cons _ ts => isNullDrop n ts

/-- Accumulating disjunction loop: python for-loops of the shape
constraint = Or(branch, constraint) where the branch is only added under a
condition (f returns none when the condition fails). -/
def orAccum {α : Type} (f : α → Option SMTTerm) : List α → SMTTerm → SMTTerm
  | [], acc => acc
  | x :: xs, acc =>
    orAccum f xs
      (match f x with
       | some d => .orN (.cons d (.cons acc .nil))
       | none => acc)

theorem orAccum_true {α : Type} (ν : Nat → Int) (f : α → Option SMTTerm) :
    ∀ (l : List α) (acc : SMTTerm),
      SMTTerm.eval ν (orAccum f l acc) = true ↔
        ((∃ x ∈ l, ∃ d, f x = some d ∧ SMTTerm.eval ν d = true) ∨
          SMTTerm.eval ν acc = true) := by
  intro l
  induction l with
  | nil => intro acc; simp [orAccum]
  | cons x xs ih =>
    intro acc
    cases hf : f x with
    | none =>
      simp only [orAccum, hf]
      rw [ih acc]
      constructor
      · rintro (⟨z, hz, d, hd, he⟩ | h)
        · exact Or.inl ⟨z, List.mem_cons_of_mem _ hz, d, hd, he⟩
        · exact Or.inr h
      · rintro (⟨z, hz, d, hd, he⟩ | h)
        · rcases List.mem_cons.mp hz with hz | hz
          · subst hz; rw [hf] at hd; cases hd
          · exact Or.inl ⟨z, hz, d, hd, he⟩
        · exact Or.inr h
    | some d =>
      simp only [orAccum, hf]
      rw [ih _]
      constructor
      · rintro (⟨z, hz, d2, hd2, he⟩ | h)
        · exact Or.inl ⟨z, List.mem_cons_of_mem _ hz, d2, hd2, he⟩
        · simp at h
          rcases h with h | h
          · exact Or.inl ⟨x, List.mem_cons_self _ _, d, hf, h⟩
          · exact Or.inr h
      · rintro (⟨z, hz, d2, hd2, he⟩ | h)
        · rcases List.mem_cons.mp hz with hz | hz
          · subst hz
            rw [hf] at hd2
            cases hd2
            exact Or.inr (by simp [he])
          · exact Or.inl ⟨z, hz, d2, hd2, he⟩
        · exact Or.inr (by simp [h])

/- get_well_formedness_constraint(sort): a disjunction over the possible
node tags; a variable tag requires the variable's sort to match, the
substituted term's constraint, and all children null; a function tag
requires the output sort to match, depth nonzero unless nullary, the first
arity children well-formed at the input sorts, and the rest null.  The whole
is conjoined with the node variable's range constraint. -/
mutual
def TermTemplate.get_well_formedness_constraint : TermTemplate → SortS → SMTTerm
  | .mk lang fv depth _ substitution node subs, sort =>
    .andN (.cons
      (wfSymLoop node depth fv.length sort subs (enumL lang.function_symbols)
        (orAccum (fun p =>
          if p.2.sort = sort then
            some (.andN (.cons (node.equalsT ((p.1 + 1 : Nat) : Int))
              (.cons (termGetConstraint (substitution p.2)) (isNullList subs))))
          else none) (enumL fv) .ff))
      (.cons node.get_constraint .nil))
termination_by t sort => (sizeOf t, 0)

def wfSymLoop (node : BoundedIntegerVariable) (depth : Nat) (fvlen : Nat) (sort : SortS)
    (subs : TermList) : List (Nat × FunctionSymbol) → SMTTerm → SMTTerm
  | [], acc => acc
  | (j, symbol) :: rest, acc =>
    wfSymLoop node depth fvlen sort subs rest
      (if symbol.output_sort = sort ∧ (depth ≠ 0 ∨ symbol.input_sorts.length = 0) then
        .orN (.cons (.andN (.cons (node.equalsT ((fvlen + j + 1 : Nat) : Int))
          (SMTList.append (wfZip symbol.input_sorts subs)
            (isNullDrop symbol.input_sorts.length subs))))
          (.cons acc .nil))
      else acc)
termination_by l acc => (sizeOf subs, 2 + l.length)

def wfZip : List SortS → TermList → SMTList
  | _, .nil => .nil
  | [], .cons _ _ => .nil
  | s :: ss, .cons t ts =>
    .cons (TermTemplate.get_well_formedness_constraint t s) (wfZip ss ts)
termination_by ss ts => (sizeOf ts, 1)
end

/-- get_constraint: the term can be of any sort when no sort is fixed. -/
def TermTemplate.get_constraint (t : TermTemplate) : SMTTerm :=
  match t.sortOf with
  | none =>
    .orN (SMTList.ofList
      (t.language.sorts.map (fun s => t.get_well_formedness_constraint s)))
  | some s => t.get_well_formedness_constraint s

/- get_from_smt_model: decode the node tag; tag 0 fails an assertion; a tag
selecting a free variable returns the substituted term's decoding; a tag
selecting a function symbol decodes the first arity children. -/
mutual
def TermTemplate.get_from_smt_model (ν : Nat → Int) : TermTemplate → Option FOTerm
  | .mk lang fv _ _ substitution node subs =>
    let node_value := node.get_from_smt_model ν
    if node_value = 0 then none
    else if node_value ≤ (fv.length : Int) then
      match pyGet fv (node_value - 1) with
      | none => none
      | some fvar => some (termGetFromModel (substitution fvar) ν)
    else
      match pyGet lang.function_symbols (node_value - fv.length - 1) with
      | none => none
      | some symbol =>
        match fmTake ν symbol.input_sorts.length subs with
        | none => none
        | some args => some (.app symbol args)

def fmTake (ν : Nat → Int) : Nat → TermList → Option FOTermList
  | 0, _ => some .nil
  | _ + 1, .nil => some .nil
  | n + 1, .cons t ts =>
    match TermTemplate.get_from_smt_model ν t with
    | none => none
    | some a =>
      match fmTake ν n ts with
      | none => none
      | some rest => some (.cons a rest)
end

/- equals(value): a disjunction over the node tags matching the concrete
term.  For a tag selecting a free variable the code calls equals on the
substituted concrete term, whose default Term.equals raises
NotImplementedError (none); since the python loop runs the variable tags
first and eagerly, any template with a nonempty free-variable tuple raises
before producing a term.  For a function tag the disjunct requires the
symbols to match and recursively the arguments. -/
mutual
def TermTemplate.equalsO : TermTemplate → FOTerm → Option SMTTerm
  | .mk lang fv depth _ _ node subs, value =>
    if fv.isEmpty then
      equalsSymLoop node depth fv.length subs value (enumL lang.function_symbols) .ff
    else none
termination_by t value => (sizeOf t, 0)

def equalsSymLoop (node : BoundedIntegerVariable) (depth : Nat) (fvlen : Nat)
    (subs : TermList) (value : FOTerm) :
    List (Nat × FunctionSymbol) → SMTTerm → Option SMTTerm
  | [], acc => some acc
  | (j, symbol) :: rest, acc =>
    match value with
    | .app g args =>
      if g = symbol ∧ (depth ≠ 0 ∨ symbol.input_sorts.length = 0) then
        if args.length = symbol.input_sorts.length then
          match equalsZip subs args with
          | none => none
          | some cs =>
            equalsSymLoop node depth fvlen subs value rest
              (.orN (.cons (.andN (.cons (node.equalsT ((fvlen + j + 1 : Nat) : Int)) cs))
                (.cons acc .nil)))
        else none
      else equalsSymLoop node depth fvlen subs value rest acc
    | .var _ => equalsSymLoop node depth fvlen subs value rest acc
termination_by l acc => (sizeOf subs, 2 + l.length)

def equalsZip : TermList → FOTermList → Option SMTList
  | _, .nil => some .nil
  | .nil, .cons _ _ => some .nil
  | .cons t ts, .cons a rest =>
    match TermTemplate.equalsO t a with
    | none => none
    | some c =>
      match equalsZip ts rest with
      | none => none
      | some cs => some (.cons c cs)
termination_by ts rest => (sizeOf ts, 1)
end

/- substitute: the python implementation builds a fresh template through the
constructor (advancing the global symbol counter), then overwrites its node
with the original node, its substitution with the composed substitution, and
its subterms with the substituted subterms; the net result is modelled
directly. -/
mutual
def TermTemplate.substituteT (σ : SubstMap) : TermTemplate → TermTemplate
  | .mk lang fv depth sort substitution node subs =>
    .mk lang fv depth sort (fun v => substT σ (substitution v)) node
      (substituteTL σ subs)

def substituteTL (σ : SubstMap) : TermList → TermList
  | .nil => .nil
  | .cons t ts => .cons (TermTemplate.substituteT σ t) (substituteTL σ ts)
end

/- The node tag variables of a template, root first. -/
mutual
def nodesT : TermTemplate → List BoundedIntegerVariable
  | .mk _ _ _ _ _ node subs => node :: nodesL subs

def nodesL : TermList → List BoundedIntegerVariable
  | .nil => []
  | .cons t ts => nodesT t ++ nodesL ts
end

/- Shape invariant satisfied by every template the constructor can build
with an empty free-variable tuple: no free variables anywhere and, at
nonzero depth, exactly max_function_arity children. -/
mutual
def invT : TermTemplate → Bool
  | .mk lang fv depth _ _ _ subs =>
    fv.isEmpty && (depth == 0 || TermList.lengthT subs == lang.get_max_function_arity)
      && invL subs

def invL : TermList → Bool
  | .nil => true
  | .cons t ts => invT t && invL ts
end

/-- subterms[:n] (python slice). -/
def takeT : Nat → TermList → TermList
  | 0, _ => .nil
  | _ + 1, .nil => .nil
  | n + 1, .cons t ts => .cons t (takeT n ts)

/-! ## Atomic formula templates -/

/-- AtomicFormulaTemplate: node tag 0 absent, 1 Falsum, 2 Verum, 3.. one per
relation symbol; owns max_relation_arity term-template children.  The node
variable is allocated with bounds (0, 3 + number of relation symbols). -/
structure AtomicFormulaTemplate : Type where
  language : FOLanguage
  term_depth : Nat
  allow_constant : Bool
  node : BoundedIntegerVariable
  subterms : TermList

namespace AtomicFormulaTemplate

def get_is_null_constraint (a : AtomicFormulaTemplate) : SMTTerm :=
  .andN (.cons (a.node.equalsT 0) (isNullList a.subterms))

/-- get_well_formedness_constraint: the loop runs the node values 1 and 2
(each contributing only when allow_constant is set) and then one branch per
relation symbol; no range constraint on the node variable is conjoined. -/
def get_well_formedness_constraint (a : AtomicFormulaTemplate) : SMTTerm :=
  orAccum (fun p =>
      some (.andN (.cons (a.node.equalsT ((p.1 + 3 : Nat) : Int))
        (SMTList.append (wfZip p.2.input_sorts a.subterms)
          (isNullDrop p.2.input_sorts.length a.subterms)))))
    (enumL a.language.relation_symbols)
    (orAccum (fun nv =>
        if a.allow_constant then
          some (.andN (.cons (a.node.equalsT nv) (isNullList a.subterms)))
        else none)
      [(1 : Int), 2] .ff)

def get_constraint (a : AtomicFormulaTemplate) : SMTTerm :=
  a.get_well_formedness_constraint

/-- get_from_smt_model: no assertion guards the node tag; the symbol lookup
uses python indexing, so a tag of 0 reads relation_symbols[-3], which wraps
around silently whenever there are at least three relation symbols. -/
def get_from_smt_model (a : AtomicFormulaTemplate) (ν : Nat → Int) : Option FOFormula :=
  let node_value := a.node.get_from_smt_model ν
  if node_value = 1 then some .falsum
  else if node_value = 2 then some .verum
  else
    match pyGet a.language.relation_symbols (node_value - 3) with
    | none => none
    | some symbol =>
      match fmTake ν symbol.input_sorts.length a.subterms with
      | none => none
      | some args => some (.rel symbol args)

/-- equals(value) for atomic values; the relation branch looks up the first
index of the symbol and conjoins the child equalities (which raise, none,
when a child template has free variables). -/
def equalsA (a : AtomicFormulaTemplate) (value : FOFormula) : Option SMTTerm :=
  match value with
  | .falsum => some (a.node.equalsT 1)
  | .verum => some (a.node.equalsT 2)
  | .rel r args =>
    if r ∈ a.language.relation_symbols then
      match equalsZip (takeT r.input_sorts.length a.subterms) args with
      | none => none
      | some cs =>
        some (.andN (.cons
          (a.node.equalsT ((indexOfL r a.language.relation_symbols + 3 : Nat) : Int)) cs))
    else some .ff
  | _ => some .ff

/-- substitute: rebuilds through the constructor and then overwrites the
node with the original node and the subterms with the substituted subterms
(the source notes the control variable is intentionally shared). -/
def substituteA (σ : SubstMap) (a : AtomicFormulaTemplate) : AtomicFormulaTemplate :=
  { language := a.language
    term_depth := a.term_depth
    allow_constant := a.allow_constant
    node := a.node
    subterms := substituteTL σ a.subterms }

def nodesA (a : AtomicFormulaTemplate) : List BoundedIntegerVariable :=
  a.node :: nodesL a.subterms

/-- Shape invariant: max_relation_arity children, all free-variable free,
and a duplicate-free relation symbol list. -/
def invA (a : AtomicFormulaTemplate) : Bool :=
  (TermList.lengthT a.subterms == a.language.get_max_relation_arity)
    && invL a.subterms && decide a.language.relation_symbols.Nodup

end AtomicFormulaTemplate

/-! ## Quantifier-free formula templates -/

/- QuantifierFreeFormulaTemplate: node tag in 0..6 (0 absent, 1 atomic,
2 conjunction, 3 disjunction, 4 negation, 5 implication, 6 equivalence);
owns an atomic child and, at nonzero formula depth, two quantifier-free
children of depth one less (QFSub.two); at depth zero it owns none
(QFSub.none0). -/
mutual
inductive QFFT : Type where
  | mk : FOLanguage → Nat → Nat → BoundedIntegerVariable → AtomicFormulaTemplate →
         QFSub → QFFT

inductive QFSub : Type where
  | none0 : QFSub
  | two : QFFT → QFFT → QFSub
end

def QFSub.isNone0 : QFSub → Bool
  | .none0 => true
  | .two _ _ => false

/-- get_constructor_and_arity of the source, restricted to its arity
component; a tag outside 2..6 raises KeyError (none); such a tag cannot
arise because the node variable is allocated with bounds (0, 6). -/
def qArity (nv : Int) : Option Nat :=
  if nv = 2 then some 2
  else if nv = 3 then some 2
  else if nv = 4 then some 1
  else if nv = 5 then some 2
  else if nv = 6 then some 2
  else none

mutual
def QFFT.get_is_null_constraint : QFFT → SMTTerm
  | .mk _ _ _ node atom subs =>
    .andN (.cons (node.equalsT 0)
      (.cons atom.get_is_null_constraint (subIsNullList subs)))

def subIsNullList : QFSub → SMTList
  | .none0 => .nil
  | .two a b =>
    .cons (QFFT.get_is_null_constraint a) (.cons (QFFT.get_is_null_constraint b) .nil)
end

/- get_constraint: loop over the node range; tag 1 requires the atomic
child well-formed and both subformulas null; a connective tag (only at
nonzero formula depth) requires the atomic child null, the first arity
subformulas well-formed and the rest null. -/
mutual
def QFFT.get_constraint : QFFT → SMTTerm
  | .mk _ _ fd node atom subs =>
    orAccum (fun nv =>
        if nv = 1 then
          some (.andN (.cons (node.equalsT 1)
            (.cons atom.get_constraint (SMTList.ofList (subIsNullL subs)))))
        else if nv ≠ 0 ∧ fd ≠ 0 then
          match qArity nv with
          | none => none
          | some ar =>
            some (.andN (.cons (node.equalsT nv)
              (.cons atom.get_is_null_constraint
                (SMTList.ofList ((subConstraintL subs).take ar ++ (subIsNullL subs).drop ar)))))
        else none)
      node.get_range .ff

def subConstraintL : QFSub → List SMTTerm
  | .none0 => []
  | .two a b => [QFFT.get_constraint a, QFFT.get_constraint b]

def subIsNullL : QFSub → List SMTTerm
  | .none0 => []
  | .two a b => [QFFT.get_is_null_constraint a, QFFT.get_is_null_constraint b]
end

/- get_from_smt_model: tag 0 fails the assertion; tag 1 decodes the atomic
child; a connective tag at nonzero depth decodes the first arity
subformulas; otherwise the final assertion fails. -/
def QFFT.get_from_smt_model (ν : Nat → Int) : QFFT → Option FOFormula
  | .mk _ _ fd node atom subs =>
    let node_value := node.get_from_smt_model ν
    if node_value = 0 then none
    else if node_value = 1 then atom.get_from_smt_model ν
    else if fd ≠ 0 then
      match subs with
      | .none0 => none
      | .two a b =>
        if node_value = 2 then
          match QFFT.get_from_smt_model ν a, QFFT.get_from_smt_model ν b with
          | some l, some r => some (.conj l r)
          | _, _ => none
        else if node_value = 3 then
          match QFFT.get_from_smt_model ν a, QFFT.get_from_smt_model ν b with
          | some l, some r => some (.disj l r)
          | _, _ => none
        else if node_value = 4 then
          match QFFT.get_from_smt_model ν a with
          | some l => some (.neg l)
          | none => none
        else if node_value = 5 then
          match QFFT.get_from_smt_model ν a, QFFT.get_from_smt_model ν b with
          | some l, some r => some (.impl l r)
          | _, _ => none
        else if node_value = 6 then
          match QFFT.get_from_smt_model ν a, QFFT.get_from_smt_model ν b with
          | some l, some r => some (.equiv l r)
          | _, _ => none
        else none
    else none

/- equals(value): atomic values delegate to the atomic child regardless of
depth; at formula depth 0 everything else is FALSE; otherwise the matching
connective tag is conjoined with the child equalities; quantified values
fall through to FALSE. -/
def QFFT.equalsQ : QFFT → FOFormula → Option SMTTerm
  | .mk _ _ fd node atom subs, value =>
    match value with
    | .falsum => atom.equalsA value
    | .verum => atom.equalsA value
    | .rel r args => atom.equalsA (.rel r args)
    | .conj l r =>
      if fd = 0 then some .ff
      else
        match subs with
        | .none0 => none
        | .two a b =>
          match QFFT.equalsQ a l with
          | none => none
          | some c1 =>
            match QFFT.equalsQ b r with
            | none => none
            | some c2 =>
              some (.andN (.cons (node.equalsT 2) (.cons c1 (.cons c2 .nil))))
    | .disj l r =>
      if fd = 0 then some .ff
      else
        match subs with
        | .none0 => none
        | .two a b =>
          match QFFT.equalsQ a l with
          | none => none
          | some c1 =>
            match QFFT.equalsQ b r with
            | none => none
            | some c2 =>
              some (.andN (.cons (node.equalsT 3) (.cons c1 (.cons c2 .nil))))
    | .neg f =>
      if fd = 0 then some .ff
      else
        match subs with
        | .none0 => none
        | .two a _ =>
          match QFFT.equalsQ a f with
          | none => none
          | some c1 => some (.andN (.cons (node.equalsT 4) (.cons c1 .nil)))
    | .impl l r =>
      if fd = 0 then some .ff
      else
        match subs with
        | .none0 => none
        | .two a b =>
          match QFFT.equalsQ a l with
          | none => none
          | some c1 =>
            match QFFT.equalsQ b r with
            | none => none
            | some c2 =>
              some (.andN (.cons (node.equalsT 5) (.cons c1 (.cons c2 .nil))))
    | .equiv l r =>
      if fd = 0 then some .ff
      else
        match subs with
        | .none0 => none
        | .two a b =>
          match QFFT.equalsQ a l with
          | none => none
          | some c1 =>
            match QFFT.equalsQ b r with
            | none => none
            | some c2 =>
              some (.andN (.cons (node.equalsT 6) (.cons c1 (.cons c2 .nil))))
    | .all _ _ => some .ff
    | .ex _ _ => some .ff

/- substitute: rebuilds through the constructor, then overwrites node, atom
and subformulas; the node is the original one. -/
mutual
def QFFT.substituteQ (σ : SubstMap) : QFFT → QFFT
  | .mk lang td fd node atom subs =>
    .mk lang td fd node (AtomicFormulaTemplate.substituteA σ atom) (substituteQSub σ subs)

def substituteQSub (σ : SubstMap) : QFSub → QFSub
  | .none0 => .none0
  | .two a b => .two (QFFT.substituteQ σ a) (QFFT.substituteQ σ b)
end

mutual
def nodesQ : QFFT → List BoundedIntegerVariable
  | .mk _ _ _ node atom subs => node :: (AtomicFormulaTemplate.nodesA atom ++ nodesQSub subs)

def nodesQSub : QFSub → List BoundedIntegerVariable
  | .none0 => []
  | .two a b => nodesQ a ++ nodesQ b
end

/- Shape invariant: the node bounds are the constructor's (0, 6); the
subformulas are present exactly when the formula depth is nonzero; the
atomic child and the subformulas are themselves well-shaped. -/
mutual
def invQ : QFFT → Bool
  | .mk _ _ fd node atom subs =>
    (node.lo == 0) && (node.hi == 6) && ((fd == 0) == QFSub.isNone0 subs)
      && atom.invA && invQSub subs

def invQSub : QFSub → Bool
  | .none0 => true
  | .two a b => invQ a && invQ b
end

/-! ## Union templates and the example driver -/

/-- A union formula template: a selector tag variable plus the child
templates. -/
structure UnionFormulaTemplate : Type where
  node : BoundedIntegerVariable
  templates : List QFFT

/-- Modelled from the spec: the UnionTemplate(children) constructor of
synthesis/template.py (not under src/) owns a selector tag variable whose
value picks one child; the selector is a fresh backend symbol allocated at
construction time from the global fresh-symbol counter c. -/
def mkUnionFormulaTemplate (ts : List QFFT) (c : Nat) : UnionFormulaTemplate × Nat :=
  (⟨⟨c, 1, ts.length⟩, ts⟩, c + 1)

/-- UnionFormulaTemplate.substitute: the source rebuilds through the
constructor, type(self)(*(template.substitute(substitution) for template in
self.templates)), so a fresh selector tag is allocated for the result while
the children are substituted in place. -/
def UnionFormulaTemplate.substituteU (σ : SubstMap) (u : UnionFormulaTemplate)
    (c : Nat) : UnionFormulaTemplate × Nat :=
  mkUnionFormulaTemplate (u.templates.map (QFFT.substituteQ σ)) c

/-- Modal formulas of the example driver (src/examples/axiomatization.py). -/
inductive ModalFormula : Type where
  | atom : Nat → ModalFormula
  | verum : ModalFormula
  | falsum : ModalFormula
  | conj : ModalFormula → ModalFormula → ModalFormula
  | disj : ModalFormula → ModalFormula → ModalFormula
  | neg : ModalFormula → ModalFormula
  | impl : ModalFormula → ModalFormula → ModalFormula
  | equiv : ModalFormula → ModalFormula → ModalFormula
  | box : ModalFormula → ModalFormula
  | diamond : ModalFormula → ModalFormula
deriving DecidableEq

/-- The conjunction the example driver builds from the accepted formulas:
it starts from the last accepted formula and, iterating over the others in
order, prepends each as the left conjunct (None when no formula was
accepted; the driver guards that case). -/
def driverConjoin (l : List ModalFormula) : Option ModalFormula :=
  match l.getLast? with
  | none => none
  | some last => some (l.dropLast.foldl (fun acc f => .conj f acc) last)

/-! ## Lemmas about the template constraint loops -/

@[simp] theorem SMTTerm.eval_leCV (ν : Nat → Int) (k : Int) (i : Nat) :
    SMTTerm.eval ν (.leCV k i) = decide (k ≤ ν i) := rfl

@[simp] theorem SMTTerm.eval_leVC (ν : Nat → Int) (i : Nat) (k : Int) :
    SMTTerm.eval ν (.leVC i k) = decide (ν i ≤ k) := rfl

deriving instance DecidableEq for SMTTerm
deriving instance DecidableEq for FOTerm
deriving instance DecidableEq for FOTermList
deriving instance DecidableEq for FOFormula

theorem wfSymLoop_true (ν : Nat → Int) (node : BoundedIntegerVariable)
    (depth fvlen : Nat) (sort : SortS) (subs : TermList) :
    ∀ (l : List (Nat × FunctionSymbol)) (acc : SMTTerm),
      SMTTerm.eval ν (wfSymLoop node depth fvlen sort subs l acc) = true ↔
        ((∃ p ∈ l, (p.2.output_sort = sort ∧ (depth ≠ 0 ∨ p.2.input_sorts.length = 0)) ∧
            SMTTerm.eval ν (.andN (.cons (node.equalsT ((fvlen + p.1 + 1 : Nat) : Int))
              (SMTList.append (wfZip p.2.input_sorts subs)
                (isNullDrop p.2.input_sorts.length subs)))) = true) ∨
          SMTTerm.eval ν acc = true) := by
  intro l
  induction l with
  | nil => intro acc; simp [wfSymLoop]
  | cons p rest ih =>
    intro acc
    obtain ⟨j, symbol⟩ := p
    by_cases hg : symbol.output_sort = sort ∧ (depth ≠ 0 ∨ symbol.input_sorts.length = 0)
    · rw [wfSymLoop, if_pos hg, ih]
      constructor
      · rintro (⟨q, hq, hgq, he⟩ | h)
        · exact Or.inl ⟨q, List.mem_cons_of_mem _ hq, hgq, he⟩
        · simp only [SMTTerm.eval_orN, SMTList.evalAny_cons, SMTList.evalAny_nil,
            Bool.or_false, Bool.or_eq_true] at h
          rcases h with h | h
          · exact Or.inl ⟨(j, symbol), List.mem_cons_self _ _, hg, h⟩
          · exact Or.inr h
      · rintro (⟨q, hq, hgq, he⟩ | h)
        · rcases List.mem_cons.mp hq with hq | hq
          · subst hq
            refine Or.inr ?_
            simp only [SMTTerm.eval_orN, SMTList.evalAny_cons, SMTList.evalAny_nil,
              Bool.or_false, Bool.or_eq_true]
            exact Or.inl he
          · exact Or.inl ⟨q, hq, hgq, he⟩
        · refine Or.inr ?_
          simp only [SMTTerm.eval_orN, SMTList.evalAny_cons, SMTList.evalAny_nil,
            Bool.or_false, Bool.or_eq_true]
          exact Or.inr h
    · rw [wfSymLoop, if_neg hg, ih]
      constructor
      · rintro (⟨q, hq, hgq, he⟩ | h)
        · exact Or.inl ⟨q, List.mem_cons_of_mem _ hq, hgq, he⟩
        · exact Or.inr h
      · rintro (⟨q, hq, hgq, he⟩ | h)
        · rcases List.mem_cons.mp hq with hq | hq
          · subst hq; exact absurd hgq hg
          · exact Or.inl ⟨q, hq, hgq, he⟩
        · exact Or.inr h

theorem equalsSymLoop_total (ν : Nat → Int) (node : BoundedIntegerVariable)
    (depth fvlen : Nat) (subs : TermList) (g : FunctionSymbol) (args : FOTermList)
    (cs : SMTList) (hz : equalsZip subs args = some cs)
    (hlen : args.length = g.input_sorts.length) :
    ∀ (l : List (Nat × FunctionSymbol)) (acc : SMTTerm),
      ∃ r, equalsSymLoop node depth fvlen subs (.app g args) l acc = some r ∧
        (SMTTerm.eval ν acc = true → SMTTerm.eval ν r = true) := by
  intro l
  induction l with
  | nil => intro acc; exact ⟨acc, by rw [equalsSymLoop], fun h => h⟩
  | cons p rest ih =>
    intro acc
    obtain ⟨j, symbol⟩ := p
    by_cases hg : g = symbol ∧ (depth ≠ 0 ∨ symbol.input_sorts.length = 0)
    · have hlen2 : args.length = symbol.input_sorts.length := hg.1 ▸ hlen
      rw [equalsSymLoop, if_pos hg, if_pos hlen2, hz]
      obtain ⟨r, hr, hmono⟩ := ih
        (.orN (.cons (.andN (.cons (node.equalsT ((fvlen + j + 1 : Nat) : Int)) cs))
          (.cons acc .nil)))
      refine ⟨r, hr, fun h => hmono ?_⟩
      simp only [SMTTerm.eval_orN, SMTList.evalAny_cons, SMTList.evalAny_nil,
        Bool.or_false, Bool.or_eq_true]
      exact Or.inr h
    · rw [equalsSymLoop, if_neg hg]
      exact ih acc

theorem equalsSymLoop_reach (ν : Nat → Int) (node : BoundedIntegerVariable)
    (depth fvlen : Nat) (subs : TermList) (g : FunctionSymbol) (args : FOTermList)
    (cs : SMTList) (j : Nat) (hz : equalsZip subs args = some cs)
    (hlen : args.length = g.input_sorts.length)
    (hguard : depth ≠ 0 ∨ g.input_sorts.length = 0)
    (hnode : SMTTerm.eval ν (node.equalsT ((fvlen + j + 1 : Nat) : Int)) = true)
    (hcs : SMTList.evalAll ν cs = true) :
    ∀ (l : List (Nat × FunctionSymbol)) (acc : SMTTerm), (j, g) ∈ l →
      ∃ r, equalsSymLoop node depth fvlen subs (.app g args) l acc = some r ∧
        SMTTerm.eval ν r = true := by
  intro l
  induction l with
  | nil => intro acc hmem; simp at hmem
  | cons p rest ih =>
    intro acc hmem
    obtain ⟨j2, symbol⟩ := p
    rcases List.mem_cons.mp hmem with heq | hmem2
    · rw [Prod.mk.injEq] at heq
      obtain ⟨hj, hs⟩ := heq
      subst hj
      subst hs
      have hg : g = g ∧ (depth ≠ 0 ∨ g.input_sorts.length = 0) := ⟨rfl, hguard⟩
      rw [equalsSymLoop, if_pos hg, if_pos hlen, hz]
      obtain ⟨r, hr, hmono⟩ := equalsSymLoop_total ν node depth fvlen subs g args cs hz hlen
        rest (.orN (.cons (.andN (.cons (node.equalsT ((fvlen + j + 1 : Nat) : Int)) cs))
          (.cons acc .nil)))
      refine ⟨r, hr, hmono ?_⟩
      simp only [SMTTerm.eval_orN, SMTList.evalAny_cons, SMTList.evalAny_nil,
        Bool.or_false, Bool.or_eq_true]
      refine Or.inl ?_
      simp only [SMTTerm.eval_andN, SMTList.evalAll_cons, Bool.and_eq_true]
      exact ⟨hnode, hcs⟩
    · by_cases hg : g = symbol ∧ (depth ≠ 0 ∨ symbol.input_sorts.length = 0)
      · have hlen2 : args.length = symbol.input_sorts.length := hg.1 ▸ hlen
        rw [equalsSymLoop, if_pos hg, if_pos hlen2, hz]
        exact ih _ hmem2
      · rw [equalsSymLoop, if_neg hg]
        exact ih acc hmem2

theorem equalsZip_takeT (n : Nat) :
    ∀ (subs : TermList) (args : FOTermList), args.length ≤ n →
      equalsZip (takeT n subs) args = equalsZip subs args := by
  induction n with
  | zero =>
    intro subs args hlen
    cases args with
    | nil => cases subs <;> simp [equalsZip]
    | cons a rest => simp [FOTermList.length] at hlen
  | succ n ih =>
    intro subs args hlen
    cases args with
    | nil => cases subs <;> simp [equalsZip]
    | cons a rest =>
      cases subs with
      | nil => rfl
      | cons t ts =>
        have hlen2 : rest.length ≤ n := by
          simp [FOTermList.length] at hlen
          omega
        rw [takeT, equalsZip, equalsZip, ih ts rest hlen2]

/-! ## Round trip for term templates -/

mutual
theorem roundTripT (ν : Nat → Int) :
    ∀ (t : TermTemplate) (sort : SortS),
      invT t = true →
      SMTTerm.eval ν (t.get_well_formedness_constraint sort) = true →
      ∃ v : FOTerm, TermTemplate.get_from_smt_model ν t = some v ∧
        ∃ c : SMTTerm, TermTemplate.equalsO t v = some c ∧ SMTTerm.eval ν c = true
  | .mk lang fv depth sort0 su node subs, sort => by
    intro hinv hwf
    simp only [invT, Bool.and_eq_true] at hinv
    obtain ⟨⟨hfv, hdep⟩, hsubs⟩ := hinv
    have hfv2 : fv = [] := List.isEmpty_iff.mp hfv
    subst hfv2
    rw [TermTemplate.get_well_formedness_constraint] at hwf
    simp only [SMTTerm.eval_andN, SMTList.evalAll_cons, SMTList.evalAll_nil,
      Bool.and_true, Bool.and_eq_true] at hwf
    obtain ⟨hloop, hnodec⟩ := hwf
    rw [wfSymLoop_true] at hloop
    rcases hloop with ⟨⟨j, symbol⟩, hmem, ⟨hsort, hguard⟩, hd⟩ | hacc
    · simp only [SMTTerm.eval_andN, SMTList.evalAll_cons, SMTList.evalAll_append,
        Bool.and_eq_true] at hd
      obtain ⟨hnode, hzip, hnull⟩ := hd
      rw [BoundedIntegerVariable.equalsT] at hnode
      simp only [SMTTerm.eval_eqConst, beq_iff_eq, List.length_nil, Nat.zero_add] at hnode
      have hget : lang.function_symbols[j]? = some symbol := mem_enumL.mp hmem
      have hjlt : j < lang.function_symbols.length := (List.getElem?_eq_some.mp hget).1
      have hsymmem : symbol ∈ lang.function_symbols := mem_of_lookup hget
      have hdep2 : depth = 0 ∨ TermList.lengthT subs = lang.get_max_function_arity := by
        simpa using hdep
      have harle : symbol.input_sorts.length ≤ TermList.lengthT subs := by
        rcases hguard with hdne | har0
        · rcases hdep2 with h0 | hlen
          · exact absurd h0 hdne
          · rw [hlen]
            exact arity_le_max_function_arity hsymmem
        · rw [har0]
          exact Nat.zero_le _
      obtain ⟨args, hfm, hlen, cs, hcz, hcse⟩ :=
        roundTripL ν symbol.input_sorts subs hsubs harle hzip
      refine ⟨.app symbol args, ?_, ?_⟩
      · simp only [TermTemplate.get_from_smt_model, BoundedIntegerVariable.get_from_smt_model,
          hnode, List.length_nil, Nat.cast_zero]
        rw [if_neg (by push_cast; omega : ¬ (((j + 1 : Nat) : Int) = 0))]
        rw [if_neg (by push_cast; omega : ¬ (((j + 1 : Nat) : Int) ≤ (0 : Int)))]
        have harith : ((j + 1 : Nat) : Int) - (0 : Int) - 1 = ((j : Nat) : Int) := by
          push_cast; ring
        rw [harith, pyGet_ofNat _ j hjlt, hget]
        show (match fmTake ν symbol.input_sorts.length subs with
          | none => none
          | some args => some (FOTerm.app symbol args)) = some (FOTerm.app symbol args)
        rw [hfm]
      · rw [TermTemplate.equalsO]
        simp only [List.isEmpty_nil, if_true]
        have hnode2 :
            SMTTerm.eval ν
              (node.equalsT ((([] : List Variable).length + j + 1 : Nat) : Int)) = true := by
          rw [BoundedIntegerVariable.equalsT]
          simp [hnode]
        obtain ⟨r, hr, hre⟩ :=
          equalsSymLoop_reach ν node depth ([] : List Variable).length subs symbol args cs j
            hcz hlen hguard hnode2 hcse (enumL lang.function_symbols) .ff hmem
        exact ⟨r, hr, hre⟩
    · rw [orAccum_true] at hacc
      rcases hacc with ⟨p, hp, hrest⟩ | hff
      · simp [enumL, enumFromL] at hp
      · simp at hff
termination_by t sort => sizeOf t

theorem roundTripL (ν : Nat → Int) :
    ∀ (sorts : List SortS) (subs : TermList),
      invL subs = true →
      sorts.length ≤ TermList.lengthT subs →
      SMTList.evalAll ν (wfZip sorts subs) = true →
      ∃ args : FOTermList, fmTake ν sorts.length subs = some args ∧
        args.length = sorts.length ∧
        ∃ cs : SMTList, equalsZip subs args = some cs ∧ SMTList.evalAll ν cs = true
  | [], subs => by
    intro hinv hle hzip
    refine ⟨.nil, ?_, rfl, .nil, ?_, rfl⟩
    · simp only [List.length_nil]
      rw [fmTake]
    · cases subs <;> simp [equalsZip]
  | s :: ss, .nil => by
    intro hinv hle hzip
    simp [TermList.lengthT] at hle
  | s :: ss, .cons t ts => by
    intro hinv hle hzip
    simp only [invL, Bool.and_eq_true] at hinv
    obtain ⟨hit, hts⟩ := hinv
    rw [wfZip] at hzip
    simp only [SMTList.evalAll_cons, Bool.and_eq_true] at hzip
    obtain ⟨hw1, hw2⟩ := hzip
    have hle2 : ss.length ≤ TermList.lengthT ts := by
      simp [TermList.lengthT] at hle
      omega
    obtain ⟨v, hfmt, c, hce, hcee⟩ := roundTripT ν t s hit hw1
    obtain ⟨args, hfma, hlena, cs, hcz, hcse⟩ := roundTripL ν ss ts hts hle2 hw2
    refine ⟨.cons v args, ?_, ?_, .cons c cs, ?_, ?_⟩
    · simp only [List.length_cons]
      rw [fmTake, hfmt, hfma]
    · simp [FOTermList.length, hlena]
    · rw [equalsZip, hce, hcz]
    · simp [hcee, hcse]
termination_by sorts subs => sizeOf subs
end

/-- The shapes the atomic template can decode to. -/
def isAtomicF : FOFormula → Bool
  | .falsum => true
  | .verum => true
  | .rel _ _ => true
  | _ => false

theorem roundTripA (ν : Nat → Int) (a : AtomicFormulaTemplate)
    (hinv : a.invA = true)
    (hwf : SMTTerm.eval ν a.get_well_formedness_constraint = true) :
    ∃ φ : FOFormula, a.get_from_smt_model ν = some φ ∧ isAtomicF φ = true ∧
      ∃ c : SMTTerm, a.equalsA φ = some c ∧ SMTTerm.eval ν c = true := by
  obtain ⟨lang, td, ac, node, subs⟩ := a
  simp only [AtomicFormulaTemplate.invA, Bool.and_eq_true] at hinv
  obtain ⟨⟨hlen, hsubs⟩, hnd⟩ := hinv
  have hnd2 : lang.relation_symbols.Nodup := of_decide_eq_true hnd
  have hlen2 : TermList.lengthT subs = lang.get_max_relation_arity := by simpa using hlen
  simp only [AtomicFormulaTemplate.get_well_formedness_constraint] at hwf
  rw [orAccum_true] at hwf
  rcases hwf with ⟨⟨j, symbol⟩, hmem, d, hd, hdev⟩ | hconst
  · simp only [Option.some.injEq] at hd
    subst hd
    simp only [SMTTerm.eval_andN, SMTList.evalAll_cons, SMTList.evalAll_append,
      Bool.and_eq_true, BoundedIntegerVariable.equalsT, SMTTerm.eval_eqConst,
      beq_iff_eq] at hdev
    obtain ⟨hnode, hzip, hnull⟩ := hdev
    have hget : lang.relation_symbols[j]? = some symbol := mem_enumL.mp hmem
    have hjlt : j < lang.relation_symbols.length := (List.getElem?_eq_some.mp hget).1
    have hsymmem := mem_of_lookup hget
    have harle : symbol.input_sorts.length ≤ TermList.lengthT subs := by
      rw [hlen2]
      exact arity_le_max_relation_arity hsymmem
    obtain ⟨args, hfm, hlena, cs, hcz, hcse⟩ :=
      roundTripL ν symbol.input_sorts subs hsubs harle hzip
    refine ⟨.rel symbol args, ?_, rfl, ?_⟩
    · simp only [AtomicFormulaTemplate.get_from_smt_model,
        BoundedIntegerVariable.get_from_smt_model, hnode]
      rw [if_neg (by push_cast; omega : ¬ (((j + 3 : Nat) : Int) = 1))]
      rw [if_neg (by push_cast; omega : ¬ (((j + 3 : Nat) : Int) = 2))]
      have harith : ((j + 3 : Nat) : Int) - 3 = ((j : Nat) : Int) := by push_cast; ring
      rw [harith, pyGet_ofNat _ j hjlt, hget]
      show (match fmTake ν symbol.input_sorts.length subs with
        | none => none
        | some args => some (FOFormula.rel symbol args)) = some (.rel symbol args)
      rw [hfm]
    · simp only [AtomicFormulaTemplate.equalsA]
      rw [if_pos hsymmem]
      rw [equalsZip_takeT _ _ _ (le_of_eq hlena), hcz]
      refine ⟨_, rfl, ?_⟩
      have hidx : indexOfL symbol lang.relation_symbols = j := indexOfL_of_nodup hnd2 hget
      simp only [hidx, SMTTerm.eval_andN, SMTList.evalAll_cons, Bool.and_eq_true,
        BoundedIntegerVariable.equalsT, SMTTerm.eval_eqConst]
      exact ⟨by simp [hnode], hcse⟩
  · rw [orAccum_true] at hconst
    rcases hconst with ⟨nv, hnvmem, d, hd, hdev⟩ | hff
    · cases hac : ac with
      | false =>
        rw [hac] at hd
        simp at hd
      | true =>
        rw [hac] at hd
        simp only [if_true, Option.some.injEq] at hd
        subst hd
        simp only [SMTTerm.eval_andN, SMTList.evalAll_cons, Bool.and_eq_true,
          BoundedIntegerVariable.equalsT, SMTTerm.eval_eqConst, beq_iff_eq] at hdev
        obtain ⟨hnode, hnull⟩ := hdev
        simp only [List.mem_cons, List.mem_singleton] at hnvmem
        rcases hnvmem with h1 | h2
        · subst h1
          refine ⟨.falsum, ?_, rfl, node.equalsT 1, rfl, ?_⟩
          · simp [AtomicFormulaTemplate.get_from_smt_model,
              BoundedIntegerVariable.get_from_smt_model, hnode]
          · simp [BoundedIntegerVariable.equalsT, hnode]
        · rcases h2 with h2 | h2
          · subst h2
            refine ⟨.verum, ?_, rfl, node.equalsT 2, rfl, ?_⟩
            · simp [AtomicFormulaTemplate.get_from_smt_model,
                BoundedIntegerVariable.get_from_smt_model, hnode]
            · simp [BoundedIntegerVariable.equalsT, hnode]
          · simp at h2
    · simp at hff

theorem roundTripQ (ν : Nat → Int) :
    ∀ (q : QFFT), invQ q = true →
      SMTTerm.eval ν q.get_constraint = true →
      ∃ φ : FOFormula, QFFT.get_from_smt_model ν q = some φ ∧
        ∃ c : SMTTerm, QFFT.equalsQ q φ = some c ∧ SMTTerm.eval ν c = true
  | .mk lang td fd node atom subs => by
    intro hinv hwf
    simp only [invQ, Bool.and_eq_true] at hinv
    obtain ⟨⟨⟨⟨hlo, hhi⟩, hshape⟩, hatom⟩, hsubs⟩ := hinv
    simp only [QFFT.get_constraint] at hwf
    rw [orAccum_true] at hwf
    rcases hwf with ⟨nv, hnvmem, d, hd, hdev⟩ | hff
    swap
    · simp at hff
    by_cases h1 : nv = 1
    · subst h1
      rw [if_pos rfl] at hd
      simp only [Option.some.injEq] at hd
      subst hd
      simp only [SMTTerm.eval_andN, SMTList.evalAll_cons, Bool.and_eq_true,
        BoundedIntegerVariable.equalsT, SMTTerm.eval_eqConst, beq_iff_eq] at hdev
      obtain ⟨hnode, hatomc, hrest⟩ := hdev
      obtain ⟨φ, hfm, hshapeφ, c, heq, hev⟩ := roundTripA ν atom hatom hatomc
      refine ⟨φ, ?_, ?_⟩
      · rw [QFFT.get_from_smt_model.eq_def]
        simp only [BoundedIntegerVariable.get_from_smt_model, hnode]
        simp [hfm]
      · cases φ with
        | falsum =>
          refine ⟨c, ?_, hev⟩
          rw [QFFT.equalsQ.eq_def]
          exact heq
        | verum =>
          refine ⟨c, ?_, hev⟩
          rw [QFFT.equalsQ.eq_def]
          exact heq
        | rel r args =>
          refine ⟨c, ?_, hev⟩
          rw [QFFT.equalsQ.eq_def]
          exact heq
        | conj l r => simp [isAtomicF] at hshapeφ
        | disj l r => simp [isAtomicF] at hshapeφ
        | neg f => simp [isAtomicF] at hshapeφ
        | impl l r => simp [isAtomicF] at hshapeφ
        | equiv l r => simp [isAtomicF] at hshapeφ
        | all x body => simp [isAtomicF] at hshapeφ
        | ex x body => simp [isAtomicF] at hshapeφ
    · rw [if_neg h1] at hd
      by_cases h0 : nv ≠ 0 ∧ fd ≠ 0
      swap
      · rw [if_neg h0] at hd
        cases hd
      rw [if_pos h0] at hd
      obtain ⟨a, b, hsubs2⟩ : ∃ a b, subs = QFSub.two a b := by
        cases subs with
        | none0 =>
          simp only [QFSub.isNone0] at hshape
          have : fd = 0 := by simpa using hshape
          exact absurd this h0.2
        | two a b => exact ⟨a, b, rfl⟩
      subst hsubs2
      simp only [invQSub, Bool.and_eq_true] at hsubs
      obtain ⟨hia, hib⟩ := hsubs
      simp only [subConstraintL, subIsNullL] at hd
      have hnv23456 : nv = 2 ∨ nv = 3 ∨ nv = 4 ∨ nv = 5 ∨ nv = 6 := by
        by_contra hcon
        push_neg at hcon
        obtain ⟨hn2, hn3, hn4, hn5, hn6⟩ := hcon
        rw [qArity, if_neg hn2, if_neg hn3, if_neg hn4, if_neg hn5, if_neg hn6] at hd
        cases hd
      rcases hnv23456 with h | h | h | h | h
      all_goals subst h
      all_goals simp only [qArity] at hd
      all_goals simp at hd
      all_goals subst hd
      · -- conjunction
        simp only [SMTTerm.eval_andN, SMTList.evalAll_cons, Bool.and_eq_true,
          BoundedIntegerVariable.equalsT, SMTTerm.eval_eqConst, beq_iff_eq,
          SMTList.evalAll_ofList, List.all_cons, List.all_nil, Bool.and_true] at hdev
        obtain ⟨hnode, hatomn, hca, hcb⟩ := hdev
        obtain ⟨va, hfma, ca2, heqa, heva⟩ := roundTripQ ν a hia hca
        obtain ⟨vb, hfmb, cb2, heqb, hevb⟩ := roundTripQ ν b hib hcb
        refine ⟨.conj va vb, ?_, ?_⟩
        · rw [QFFT.get_from_smt_model.eq_def]
          simp only [BoundedIntegerVariable.get_from_smt_model, hnode]
          simp [h0.2, hfma, hfmb]
        · rw [QFFT.equalsQ.eq_def]
          simp only [if_neg h0.2, heqa, heqb]
          refine ⟨_, rfl, ?_⟩
          simp [hnode, heva, hevb, BoundedIntegerVariable.equalsT]
      · -- disjunction
        simp only [SMTTerm.eval_andN, SMTList.evalAll_cons, Bool.and_eq_true,
          BoundedIntegerVariable.equalsT, SMTTerm.eval_eqConst, beq_iff_eq,
          SMTList.evalAll_ofList, List.all_cons, List.all_nil, Bool.and_true] at hdev
        obtain ⟨hnode, hatomn, hca, hcb⟩ := hdev
        obtain ⟨va, hfma, ca2, heqa, heva⟩ := roundTripQ ν a hia hca
        obtain ⟨vb, hfmb, cb2, heqb, hevb⟩ := roundTripQ ν b hib hcb
        refine ⟨.disj va vb, ?_, ?_⟩
        · rw [QFFT.get_from_smt_model.eq_def]
          simp only [BoundedIntegerVariable.get_from_smt_model, hnode]
          simp [h0.2, hfma, hfmb]
        · rw [QFFT.equalsQ.eq_def]
          simp only [if_neg h0.2, heqa, heqb]
          refine ⟨_, rfl, ?_⟩
          simp [hnode, heva, hevb, BoundedIntegerVariable.equalsT]
      · -- negation
        simp only [SMTTerm.eval_andN, SMTList.evalAll_cons, Bool.and_eq_true,
          BoundedIntegerVariable.equalsT, SMTTerm.eval_eqConst, beq_iff_eq,
          SMTList.evalAll_ofList, List.all_cons, List.all_nil, Bool.and_true] at hdev
        obtain ⟨hnode, hatomn, hca, hnb⟩ := hdev
        obtain ⟨va, hfma, ca2, heqa, heva⟩ := roundTripQ ν a hia hca
        refine ⟨.neg va, ?_, ?_⟩
        · rw [QFFT.get_from_smt_model.eq_def]
          simp only [BoundedIntegerVariable.get_from_smt_model, hnode]
          simp [h0.2, hfma]
        · rw [QFFT.equalsQ.eq_def]
          simp only [if_neg h0.2, heqa]
          refine ⟨_, rfl, ?_⟩
          simp [hnode, heva, BoundedIntegerVariable.equalsT]
      · -- implication
        simp only [SMTTerm.eval_andN, SMTList.evalAll_cons, Bool.and_eq_true,
          BoundedIntegerVariable.equalsT, SMTTerm.eval_eqConst, beq_iff_eq,
          SMTList.evalAll_ofList, List.all_cons, List.all_nil, Bool.and_true] at hdev
        obtain ⟨hnode, hatomn, hca, hcb⟩ := hdev
        obtain ⟨va, hfma, ca2, heqa, heva⟩ := roundTripQ ν a hia hca
        obtain ⟨vb, hfmb, cb2, heqb, hevb⟩ := roundTripQ ν b hib hcb
        refine ⟨.impl va vb, ?_, ?_⟩
        · rw [QFFT.get_from_smt_model.eq_def]
          simp only [BoundedIntegerVariable.get_from_smt_model, hnode]
          simp [h0.2, hfma, hfmb]
        · rw [QFFT.equalsQ.eq_def]
          simp only [if_neg h0.2, heqa, heqb]
          refine ⟨_, rfl, ?_⟩
          simp [hnode, heva, hevb, BoundedIntegerVariable.equalsT]
      · -- equivalence
        simp only [SMTTerm.eval_andN, SMTList.evalAll_cons, Bool.and_eq_true,
          BoundedIntegerVariable.equalsT, SMTTerm.eval_eqConst, beq_iff_eq,
          SMTList.evalAll_ofList, List.all_cons, List.all_nil, Bool.and_true] at hdev
        obtain ⟨hnode, hatomn, hca, hcb⟩ := hdev
        obtain ⟨va, hfma, ca2, heqa, heva⟩ := roundTripQ ν a hia hca
        obtain ⟨vb, hfmb, cb2, heqb, hevb⟩ := roundTripQ ν b hib hcb
        refine ⟨.equiv va vb, ?_, ?_⟩
        · rw [QFFT.get_from_smt_model.eq_def]
          simp only [BoundedIntegerVariable.get_from_smt_model, hnode]
          simp [h0.2, hfma, hfmb]
        · rw [QFFT.equalsQ.eq_def]
          simp only [if_neg h0.2, heqa, heqb]
          refine ⟨_, rfl, ?_⟩
          simp [hnode, heva, hevb, BoundedIntegerVariable.equalsT]
termination_by q => sizeOf q

/-! ## Concrete instances used in counterexamples and witnesses -/

def sortW : SortS := ⟨"W", none⟩

def varX : Variable := ⟨"x", sortW⟩

def varY : Variable := ⟨"y", sortW⟩

def varZ : Variable := ⟨"z", sortW⟩

def relR : RelationSymbol := ⟨[sortW], "R", none⟩

def funC : FunctionSymbol := ⟨[], sortW, "c", none⟩

/-- A language with one sort and one nullary function symbol. -/
def langT : FOLanguage := ⟨[sortW], [funC], []⟩

/-- A language with three nullary relation symbols. -/
def langR3 : FOLanguage := ⟨[sortW], [], [⟨[], "R0", none⟩, ⟨[], "R1", none⟩, ⟨[], "R2", none⟩]⟩

/-- A language with one nullary relation symbol. -/
def langR1 : FOLanguage := ⟨[sortW], [], [⟨[], "R0", none⟩]⟩

/-- TermTemplate(langT, (), 0): no free variables, depth 0. -/
def termT0 : TermTemplate := .mk langT [] 0 none (fun v => .var v) ⟨0, 0, 1⟩ .nil

/-- TermTemplate(langT, (x,), 0): one free variable. -/
def termTX : TermTemplate := .mk langT [varX] 0 none (fun v => .var v) ⟨0, 0, 2⟩ .nil

/-- AtomicFormulaTemplate(langR3, (), 0, allow_constant=False). -/
def atomR3 : AtomicFormulaTemplate := ⟨langR3, 0, false, ⟨0, 0, 6⟩, .nil⟩

/-- AtomicFormulaTemplate(langR1, (), 0, allow_constant=False). -/
def atomR1 : AtomicFormulaTemplate := ⟨langR1, 0, false, ⟨0, 0, 4⟩, .nil⟩

/-- QuantifierFreeFormulaTemplate(langR1, (), 0, 0). -/
def qfftQ : QFFT := .mk langR1 0 0 ⟨0, 0, 6⟩ ⟨langR1, 0, false, ⟨1, 0, 4⟩, .nil⟩ .none0

/-- QuantifierFreeFormulaTemplate(langR3, (), 0, 0). -/
def qfftR3 : QFFT := .mk langR3 0 0 ⟨0, 0, 6⟩ ⟨langR3, 0, false, ⟨1, 0, 6⟩, .nil⟩ .none0

/-- A union template over one child, built at counter 2. -/
def unionEx : UnionFormulaTemplate := (mkUnionFormulaTemplate [qfftR3] 2).1

/-! ## Claim C4 -/

theorem wf_forces_positive (ν : Nat → Int) (lang : FOLanguage) (fv : List Variable)
    (depth : Nat) (sort0 : Option SortS) (su : Variable → FOTerm)
    (node : BoundedIntegerVariable) (subs : TermList) (sort : SortS)
    (h : SMTTerm.eval ν
        ((TermTemplate.mk lang fv depth sort0 su node subs).get_well_formedness_constraint
          sort) = true) :
    1 ≤ ν node.id := by
  rw [TermTemplate.get_well_formedness_constraint] at h
  simp only [SMTTerm.eval_andN, SMTList.evalAll_cons, SMTList.evalAll_nil,
    Bool.and_true, Bool.and_eq_true] at h
  obtain ⟨hloop, _⟩ := h
  rw [wfSymLoop_true] at hloop
  rcases hloop with ⟨p, _, _, hd⟩ | hacc
  · simp only [SMTTerm.eval_andN, SMTList.evalAll_cons, Bool.and_eq_true,
      BoundedIntegerVariable.equalsT, SMTTerm.eval_eqConst, beq_iff_eq] at hd
    obtain ⟨hnode, _⟩ := hd
    rw [hnode]
    push_cast
    omega
  · rw [orAccum_true] at hacc
    rcases hacc with ⟨p, hp, dd, hdd, hde⟩ | hff
    · by_cases hs : p.2.sort = sort
      · rw [if_pos hs] at hdd
        simp only [Option.some.injEq] at hdd
        subst hdd
        simp only [SMTTerm.eval_andN, SMTList.evalAll_cons, Bool.and_eq_true,
          BoundedIntegerVariable.equalsT, SMTTerm.eval_eqConst, beq_iff_eq] at hde
        obtain ⟨hnode, _⟩ := hde
        rw [hnode]
        push_cast
        omega
      · rw [if_neg hs] at hdd
        cases hdd
    · simp at hff

/-- Claim C4: for every TermTemplate, tag 0 is disallowed at the root — every
model of get_constraint assigns the root node tag a value of at least 1, so
the node_value != 0 assertion in get_from_smt_model cannot fire under that
precondition. -/
theorem term_template_root_tag_positive (t : TermTemplate) (ν : Nat → Int)
    (h : SMTTerm.eval ν t.get_constraint = true) :
    1 ≤ t.node.get_from_smt_model ν := by
  cases t with
  | mk lang fv depth sort0 su node subs =>
    simp only [TermTemplate.node, BoundedIntegerVariable.get_from_smt_model]
    cases sort0 with
    | some s => exact wf_forces_positive ν lang fv depth (some s) su node subs s h
    | none =>
      simp only [TermTemplate.get_constraint, TermTemplate.sortOf,
        TermTemplate.language, SMTTerm.eval_orN, SMTList.evalAny_ofList,
        List.any_eq_true, List.mem_map] at h
      obtain ⟨_, ⟨s, hs, rfl⟩, hws⟩ := h
      exact wf_forces_positive ν lang fv depth none su node subs s hws

/-- Witness for C4 at a concrete template and model. -/
theorem term_template_root_tag_positive_witness :
    SMTTerm.eval (fun _ => 1) termT0.get_constraint = true ∧
      1 ≤ termT0.node.get_from_smt_model (fun _ => 1) := by
  have h : SMTTerm.eval (fun _ => 1) termT0.get_constraint = true := by
    simp [termT0, langT, funC, sortW, TermTemplate.get_constraint, TermTemplate.sortOf,
      TermTemplate.language, TermTemplate.get_well_formedness_constraint, wfSymLoop,
      wfZip, isNullDrop, isNullList, orAccum, enumL, enumFromL, SMTList.append,
      SMTList.ofList, BoundedIntegerVariable.equalsT, BoundedIntegerVariable.get_constraint]
  exact ⟨h, term_template_root_tag_positive termT0 (fun _ => 1) h⟩

/-! ## Claim C6 -/

/-- Counterexample to C6 as stated: for an AtomicFormulaTemplate over a
language with one relation symbol and allow_constant = False, the
well-formedness constraint is not satisfiable with root tag 1 — the code
gates the Falsum tag 1 (not just Verum) on allow_constant. -/
theorem atomic_falsum_unsat_without_allow_constant :
    ¬ ∃ ν : Nat → Int, SMTTerm.eval ν atomR1.get_well_formedness_constraint = true ∧
        atomR1.node.get_from_smt_model ν = 1 := by
  rintro ⟨ν, h1, h2⟩
  simp only [atomR1, langR1, AtomicFormulaTemplate.get_well_formedness_constraint,
    enumL, enumFromL, orAccum, wfZip, isNullDrop, SMTList.append, SMTList.ofList,
    BoundedIntegerVariable.equalsT, Bool.false_eq_true, if_false] at h1
  simp only [SMTTerm.eval_orN, SMTList.evalAny_cons, SMTList.evalAny_nil,
    SMTTerm.eval_andN, SMTList.evalAll_cons, SMTList.evalAll_nil,
    SMTTerm.eval_eqConst, SMTTerm.eval_ff, Bool.or_false, Bool.and_true,
    Bool.or_eq_true, Bool.and_eq_true, beq_iff_eq] at h1
  simp only [atomR1, BoundedIntegerVariable.get_from_smt_model] at h2
  omega

/-- Claim C6 (amended): in AtomicFormulaTemplate the Falsum tag 1 and the
Verum tag 2 are both gated on allow_constant; with allow_constant = False
every model of the well-formedness constraint gives the node tag a value of
at least 3 (a relation symbol), so tag 1 is unsatisfiable. -/
theorem atomic_constant_tags_gated (a : AtomicFormulaTemplate) (ν : Nat → Int)
    (hc : a.allow_constant = false)
    (h : SMTTerm.eval ν a.get_well_formedness_constraint = true) :
    3 ≤ a.node.get_from_smt_model ν := by
  obtain ⟨lang, td, ac, node, subs⟩ := a
  simp only at hc
  subst hc
  simp only [AtomicFormulaTemplate.get_well_formedness_constraint] at h
  rw [orAccum_true] at h
  simp only [AtomicFormulaTemplate.node, BoundedIntegerVariable.get_from_smt_model]
  rcases h with ⟨⟨j, symbol⟩, hmem, d, hd, hdev⟩ | hconst
  · simp only [Option.some.injEq] at hd
    subst hd
    simp only [SMTTerm.eval_andN, SMTList.evalAll_cons, Bool.and_eq_true,
      BoundedIntegerVariable.equalsT, SMTTerm.eval_eqConst, beq_iff_eq] at hdev
    obtain ⟨hnode, _⟩ := hdev
    rw [hnode]
    push_cast
    omega
  · rw [orAccum_true] at hconst
    rcases hconst with ⟨nv, _, dd, hdd, _⟩ | hff
    · simp at hdd
    · simp at hff

/-- Witness for the amended C6. -/
theorem atomic_constant_tags_gated_witness :
    atomR1.allow_constant = false ∧
    SMTTerm.eval (fun _ => 3) atomR1.get_well_formedness_constraint = true ∧
    3 ≤ atomR1.node.get_from_smt_model (fun _ => 3) := by
  have h : SMTTerm.eval (fun _ => 3) atomR1.get_well_formedness_constraint = true := by
    simp [atomR1, langR1, AtomicFormulaTemplate.get_well_formedness_constraint,
      enumL, enumFromL, orAccum, wfZip, isNullDrop, SMTList.append, SMTList.ofList,
      BoundedIntegerVariable.equalsT]
  exact ⟨rfl, h, atomic_constant_tags_gated atomR1 (fun _ => 3) rfl h⟩

/-! ## Claim C5 -/

/-- Claim C5: at root tag 0, TermTemplate.get_from_smt_model and
QuantifierFreeFormulaTemplate.get_from_smt_model fail their assertions, but
AtomicFormulaTemplate.get_from_smt_model has no assertion and, through
python negative indexing (relation_symbols[-3]), silently returns a
RelationApplication whenever the language has at least three relation
symbols. -/
theorem invalid_model_tag_zero_behavior :
    TermTemplate.get_from_smt_model (fun _ => 0) termT0 = none ∧
    QFFT.get_from_smt_model (fun _ => 0) qfftR3 = none ∧
    atomR3.get_from_smt_model (fun _ => 0) = some (.rel ⟨[], "R0", none⟩ .nil) := by
  refine ⟨by decide, ?_, by decide⟩
  rw [QFFT.get_from_smt_model.eq_def]
  simp [qfftR3, BoundedIntegerVariable.get_from_smt_model]

/-! ## Claim C1 -/

/-- Counterexample to C1 as stated: for a TermTemplate with one free
variable, a model satisfying get_constraint exists and get_from_smt_model
decodes it, but equals raises NotImplementedError (the substituted concrete
term falls through to the Term.equals default) before producing any backend
term, so the round trip fails. -/
theorem template_round_trip_fails_with_free_variables :
    SMTTerm.eval (fun _ => 1) termTX.get_constraint = true ∧
    TermTemplate.get_from_smt_model (fun _ => 1) termTX = some (.var varX) ∧
    TermTemplate.equalsO termTX (.var varX) = none := by
  refine ⟨?_, by decide, ?_⟩
  · simp [termTX, langT, funC, sortW, varX, TermTemplate.get_constraint,
      TermTemplate.sortOf, TermTemplate.language,
      TermTemplate.get_well_formedness_constraint, wfSymLoop, wfZip, isNullDrop,
      isNullList, orAccum, enumL, enumFromL, SMTList.append, SMTList.ofList,
      BoundedIntegerVariable.equalsT, BoundedIntegerVariable.get_constraint,
      termGetConstraint]
  · rw [TermTemplate.equalsO.eq_def]
    simp [termTX]

/-- Claim C1 (amended): the template round trip holds for TermTemplate,
AtomicFormulaTemplate and QuantifierFreeFormulaTemplate built over an empty
free-variable tuple (and a duplicate-free relation symbol list): for every
model of get_constraint, get_from_smt_model returns a concrete value whose
equals-term evaluates to true in the model.  (With free variables present,
equals raises NotImplementedError; see the counterexample.) -/
theorem template_round_trip_amended :
    (∀ (t : TermTemplate) (ν : Nat → Int), invT t = true →
        SMTTerm.eval ν t.get_constraint = true →
        ∃ v c, TermTemplate.get_from_smt_model ν t = some v ∧
          TermTemplate.equalsO t v = some c ∧ SMTTerm.eval ν c = true) ∧
    (∀ (a : AtomicFormulaTemplate) (ν : Nat → Int), a.invA = true →
        SMTTerm.eval ν a.get_constraint = true →
        ∃ φ c, a.get_from_smt_model ν = some φ ∧
          a.equalsA φ = some c ∧ SMTTerm.eval ν c = true) ∧
    (∀ (q : QFFT) (ν : Nat → Int), invQ q = true →
        SMTTerm.eval ν q.get_constraint = true →
        ∃ φ c, QFFT.get_from_smt_model ν q = some φ ∧
          QFFT.equalsQ q φ = some c ∧ SMTTerm.eval ν c = true) := by
  refine ⟨?_, ?_, ?_⟩
  · intro t ν hinv hcon
    cases t with
    | mk lang fv depth sort0 su node subs =>
      cases sort0 with
      | some s =>
        obtain ⟨v, hfm, c, he, hev⟩ :=
          roundTripT ν (.mk lang fv depth (some s) su node subs) s hinv hcon
        exact ⟨v, c, hfm, he, hev⟩
      | none =>
        simp only [TermTemplate.get_constraint, TermTemplate.sortOf,
          TermTemplate.language, SMTTerm.eval_orN, SMTList.evalAny_ofList,
          List.any_eq_true, List.mem_map] at hcon
        obtain ⟨_, ⟨s, hs, rfl⟩, hws⟩ := hcon
        obtain ⟨v, hfm, c, he, hev⟩ :=
          roundTripT ν (.mk lang fv depth none su node subs) s hinv hws
        exact ⟨v, c, hfm, he, hev⟩
  · intro a ν hinv hcon
    obtain ⟨φ, hfm, _, c, he, hev⟩ := roundTripA ν a hinv hcon
    exact ⟨φ, c, hfm, he, hev⟩
  · intro q ν hinv hcon
    obtain ⟨φ, hfm, c, he, hev⟩ := roundTripQ ν q hinv hcon
    exact ⟨φ, c, hfm, he, hev⟩

/-- Witness for the amended C1, applying all three parts at concrete
templates and models. -/
theorem template_round_trip_amended_witness :
    (∃ v c, TermTemplate.get_from_smt_model (fun _ => 1) termT0 = some v ∧
        TermTemplate.equalsO termT0 v = some c ∧ SMTTerm.eval (fun _ => 1) c = true) ∧
    (∃ φ c, atomR1.get_from_smt_model (fun _ => 3) = some φ ∧
        atomR1.equalsA φ = some c ∧ SMTTerm.eval (fun _ => 3) c = true) ∧
    (∃ φ c, QFFT.get_from_smt_model (fun n => if n = 0 then 1 else 3) qfftQ = some φ ∧
        QFFT.equalsQ qfftQ φ = some c ∧
        SMTTerm.eval (fun n => if n = 0 then 1 else 3) c = true) := by
  refine ⟨?_, ?_, ?_⟩
  · refine template_round_trip_amended.1 termT0 (fun _ => 1) (by decide) ?_
    simp [termT0, langT, funC, sortW, TermTemplate.get_constraint, TermTemplate.sortOf,
      TermTemplate.language, TermTemplate.get_well_formedness_constraint, wfSymLoop,
      wfZip, isNullDrop, isNullList, orAccum, enumL, enumFromL, SMTList.append,
      SMTList.ofList, BoundedIntegerVariable.equalsT, BoundedIntegerVariable.get_constraint]
  · refine template_round_trip_amended.2.1 atomR1 (fun _ => 3) (by decide) ?_
    simp [atomR1, langR1, AtomicFormulaTemplate.get_constraint,
      AtomicFormulaTemplate.get_well_formedness_constraint, enumL, enumFromL, orAccum,
      wfZip, isNullDrop, SMTList.append, SMTList.ofList, BoundedIntegerVariable.equalsT]
  · refine template_round_trip_amended.2.2 qfftQ (fun n => if n = 0 then 1 else 3)
      (by decide) ?_
    have hr : (⟨0, 0, 6⟩ : BoundedIntegerVariable).get_range = [0, 1, 2, 3, 4, 5, 6] := by
      decide
    simp only [QFFT.get_constraint, qfftQ, hr, orAccum, qArity, subConstraintL,
      subIsNullL]
    norm_num
    simp [AtomicFormulaTemplate.get_constraint,
      AtomicFormulaTemplate.get_well_formedness_constraint, langR1, enumL, enumFromL,
      orAccum, wfZip, isNullDrop, SMTList.append, SMTList.ofList,
      BoundedIntegerVariable.equalsT]

/-! ## Claim C2 -/

/-- Counterexample to C2 as stated: substituting y with x under a quantifier
binding x captures the variable — x is free in the substituted term but not
free in the result. -/
theorem substitute_captures :
    substF [(varY, FOTerm.var varX)]
        (.all varX (.rel relR (.cons (.var varY) .nil)))
      = .all varX (.rel relR (.cons (.var varX) .nil)) ∧
    varX ∈ freeVarsT (FOTerm.var varX) ∧
    varX ∉ freeVarsF (substF [(varY, FOTerm.var varX)]
        (.all varX (.rel relR (.cons (.var varY) .nil)))) := by
  refine ⟨by decide, by decide, by decide⟩

/-- Claim C2 (amended): a quantifier removes its bound variable from the
substitution before recursing (so the image of the bound variable is never
applied inside the body), and free variables of the substituted terms stay
free in the result provided they are not bound anywhere in the formula;
without that proviso substitution can capture (see the counterexample). -/
theorem substitute_quantifier_amended :
    (∀ (x : Variable) (body : FOFormula) (σ : SubstMap),
        substF σ (.all x body) = .all x (substF (removeKey σ x) body) ∧
        substF σ (.ex x body) = .ex x (substF (removeKey σ x) body)) ∧
    (∀ (φ : FOFormula) (σ : SubstMap) (v y : Variable) (t : FOTerm),
        slookup σ v = some t → v ∈ freeVarsF φ → y ∈ freeVarsT t →
        y ∉ boundVarsF φ → y ∈ freeVarsF (substF σ φ)) := by
  constructor
  · intro x body σ
    constructor
    all_goals
      simp only [substF]
      by_cases hs : (slookup σ x).isSome
      · rw [if_pos hs]
      · rw [if_neg hs,
          removeKey_eq_of_slookup_none (Option.not_isSome_iff_eq_none.mp hs)]
  · exact fun φ => freeStaysFreeF φ

/-- Witness for the amended C2. -/
theorem substitute_quantifier_amended_witness :
    (slookup [(varY, FOTerm.var varZ)] varY = some (FOTerm.var varZ) ∧
      varY ∈ freeVarsF (.all varX (.rel relR (.cons (.var varY) .nil))) ∧
      varZ ∈ freeVarsT (FOTerm.var varZ) ∧
      varZ ∉ boundVarsF (.all varX (.rel relR (.cons (.var varY) .nil)))) ∧
    varZ ∈ freeVarsF (substF [(varY, FOTerm.var varZ)]
      (.all varX (.rel relR (.cons (.var varY) .nil)))) :=
  ⟨⟨by decide, by decide, by decide, by decide⟩,
    substitute_quantifier_amended.2
      (.all varX (.rel relR (.cons (.var varY) .nil)))
      [(varY, FOTerm.var varZ)] varY varZ (FOTerm.var varZ)
      (by decide) (by decide) (by decide) (by decide)⟩

/-! ## Claim C3 -/

/-- Claim C3 (amended): substitution commutes with interpretation — for
terms unconditionally, and for formulas provided no bound variable of the
formula occurs free in a term of the substitution's range; without that
proviso the commutation fails (see the counterexample). -/
theorem interpret_substitute_amended :
    (∀ (D : Type) (M : SemStructure D) (V : Variable → D) (σ : SubstMap) (t : FOTerm),
        interpT M V (substT σ t) = interpT M (composeVal M V σ) t) ∧
    (∀ (D : Type) (M : SemStructure D) (φ : FOFormula) (σ : SubstMap) (V : Variable → D),
        (∀ y ∈ boundVarsF φ, ∀ p ∈ σ, y ∉ freeVarsT p.2) →
        (interpF M V (substF σ φ) ↔ interpF M (composeVal M V σ) φ)) :=
  ⟨fun _ M V σ t => interpT_substT M V σ t,
   fun _ M φ σ V h => interpF_substF M φ σ V h⟩

/-- The structure used in the C3 counterexample: carrier 2, one relation
true exactly of element 0. -/
def structEx : SemStructure Nat where
  carrier := fun _ a => a < 2
  funcInterp := fun _ _ => 0
  relInterp := fun _ l => l = [0]

/-- Counterexample to C3 as stated: with the capture from the C2
counterexample, interpreting the substituted formula is not equivalent to
interpreting the original under the composed valuation. -/
theorem interpret_substitute_captures :
    ¬ (interpF structEx (fun _ => 0)
          (substF [(varY, FOTerm.var varX)]
            (.all varX (.rel relR (.cons (.var varY) .nil))))
        ↔ interpF structEx
            (composeVal structEx (fun _ => 0) [(varY, FOTerm.var varX)])
            (.all varX (.rel relR (.cons (.var varY) .nil)))) := by
  intro h
  have hsub : substF [(varY, FOTerm.var varX)]
      (.all varX (.rel relR (.cons (.var varY) .nil)))
      = .all varX (.rel relR (.cons (.var varX) .nil)) := by decide
  rw [hsub] at h
  have hr : interpF structEx
      (composeVal structEx (fun _ => 0) [(varY, FOTerm.var varX)])
      (.all varX (.rel relR (.cons (.var varY) .nil))) := by
    intro a ha
    have h1 : updV (composeVal structEx (fun _ => 0) [(varY, FOTerm.var varX)])
        varX a varY = 0 := by
      rw [updV]
      rw [if_neg (show ¬ (varY = varX) by decide)]
      rfl
    show structEx.relInterp relR
      (interpTL structEx
        (updV (composeVal structEx (fun _ => 0) [(varY, FOTerm.var varX)]) varX a)
        (.cons (.var varY) .nil))
    simp only [interpTL, interpT]
    rw [h1]
    show ([0] : List Nat) = [0]
    rfl
  have hl := h.mpr hr 1 (show (1 : Nat) < 2 by omega)
  have h2 : updV (fun _ => (0 : Nat)) varX 1 varX = 1 := by
    rw [updV]
    simp
  revert hl
  show ¬ structEx.relInterp relR
    (interpTL structEx (updV (fun _ => 0) varX 1) (.cons (.var varX) .nil))
  simp only [interpTL, interpT]
  rw [h2]
  show ¬ (([1] : List Nat) = [0])
  decide

/-- Witness for the amended C3. -/
theorem interpret_substitute_amended_witness :
    (∀ y ∈ boundVarsF FOFormula.falsum, ∀ p ∈ ([] : SubstMap), y ∉ freeVarsT p.2) ∧
    (interpF structEx (fun _ => 0) (substF [] .falsum) ↔
      interpF structEx (composeVal structEx (fun _ => 0) []) .falsum) :=
  ⟨by simp [boundVarsF],
   interpret_substitute_amended.2 Nat structEx .falsum [] (fun _ => 0)
     (by simp [boundVarsF])⟩

/-! ## Claim C7 -/

/-- Counterexample to C7 as stated: two languages sharing the sort name A
(with different backend hints) expand successfully — name collisions alone
are not detected, because membership is tested by whole-value equality. -/
theorem expand_misses_name_collision :
    FOLanguage.expand ⟨[⟨"A", none⟩], [], []⟩ ⟨[⟨"A", some 0⟩], [], []⟩
        = some ⟨[⟨"A", none⟩, ⟨"A", some 0⟩], [], []⟩ ∧
    (⟨"A", none⟩ : SortS).name = (⟨"A", some 0⟩ : SortS).name := by
  refine ⟨by decide, rfl⟩

/-- Claim C7 (amended): expand succeeds exactly when no sort, function
symbol or relation symbol of the other language is equal, as a whole value
(name together with sorts and hook), to one of this language's — in which
case the result is the componentwise concatenation in order; equal names
with different hooks are not treated as collisions. -/
theorem expand_characterization (l1 l2 l : FOLanguage) :
    FOLanguage.expand l1 l2 = some l ↔
      ((∀ s ∈ l2.sorts, s ∉ l1.sorts) ∧
       (∀ f ∈ l2.function_symbols, f ∉ l1.function_symbols) ∧
       (∀ r ∈ l2.relation_symbols, r ∉ l1.relation_symbols) ∧
       l = ⟨l1.sorts ++ l2.sorts, l1.function_symbols ++ l2.function_symbols,
            l1.relation_symbols ++ l2.relation_symbols⟩) := by
  unfold FOLanguage.expand
  by_cases h : (∀ s ∈ l2.sorts, ¬ s ∈ l1.sorts) ∧
      (∀ f ∈ l2.function_symbols, ¬ f ∈ l1.function_symbols) ∧
      (∀ r ∈ l2.relation_symbols, ¬ r ∈ l1.relation_symbols)
  · rw [if_pos h]
    constructor
    · intro he
      injection he with he
      exact ⟨h.1, h.2.1, h.2.2, he.symm⟩
    · rintro ⟨_, _, _, rfl⟩
      rfl
  · rw [if_neg h]
    constructor
    · intro he
      cases he
    · rintro ⟨h1, h2, h3, _⟩
      exact absurd ⟨h1, h2, h3⟩ h

/-! ## Claim C8 -/

mutual
theorem nodes_substituteT (σ : SubstMap) :
    ∀ t : TermTemplate, nodesT (TermTemplate.substituteT σ t) = nodesT t
  | .mk lang fv depth sort su node subs => by
    simp only [TermTemplate.substituteT, nodesT]
    rw [nodes_substituteTL σ subs]

theorem nodes_substituteTL (σ : SubstMap) :
    ∀ ts : TermList, nodesL (substituteTL σ ts) = nodesL ts
  | .nil => rfl
  | .cons t ts => by
    simp only [substituteTL, nodesL]
    rw [nodes_substituteT σ t, nodes_substituteTL σ ts]
end

theorem nodes_substituteA (σ : SubstMap) (a : AtomicFormulaTemplate) :
    (AtomicFormulaTemplate.substituteA σ a).nodesA = a.nodesA := by
  simp only [AtomicFormulaTemplate.substituteA, AtomicFormulaTemplate.nodesA]
  rw [nodes_substituteTL σ a.subterms]

mutual
theorem nodes_substituteQ (σ : SubstMap) :
    ∀ q : QFFT, nodesQ (QFFT.substituteQ σ q) = nodesQ q
  | .mk lang td fd node atom subs => by
    simp only [QFFT.substituteQ, nodesQ]
    rw [nodes_substituteA σ atom, nodes_substituteQSub σ subs]

theorem nodes_substituteQSub (σ : SubstMap) :
    ∀ subs : QFSub, nodesQSub (substituteQSub σ subs) = nodesQSub subs
  | .none0 => rfl
  | .two a b => by
    simp only [substituteQSub, nodesQSub]
    rw [nodes_substituteQ σ a, nodes_substituteQ σ b]
end

/-- Claim C8 (amended): substitute shares the control variables for
TermTemplate, AtomicFormulaTemplate and QuantifierFreeFormulaTemplate — the
substituted template has exactly the original node tag variables, root
included — while the union templates rebuild through their constructor,
which allocates a fresh selector tag for the union node (the children's
tags are still preserved; see the counterexample). -/
theorem substitute_shares_node_tags :
    (∀ (σ : SubstMap) (t : TermTemplate),
        nodesT (TermTemplate.substituteT σ t) = nodesT t) ∧
    (∀ (σ : SubstMap) (a : AtomicFormulaTemplate),
        (AtomicFormulaTemplate.substituteA σ a).nodesA = a.nodesA) ∧
    (∀ (σ : SubstMap) (q : QFFT), nodesQ (QFFT.substituteQ σ q) = nodesQ q) :=
  ⟨fun σ t => nodes_substituteT σ t,
   fun σ a => nodes_substituteA σ a,
   fun σ q => nodes_substituteQ σ q⟩

/-- Counterexample to C8 as stated: UnionFormulaTemplate.substitute rebuilds
through the constructor and hence allocates a fresh selector tag — the
result's node variable differs from the original's, although the children's
tags are preserved. -/
theorem union_substitute_allocates_fresh_tag :
    (UnionFormulaTemplate.substituteU [] unionEx 3).1.node ≠ unionEx.node ∧
    ((UnionFormulaTemplate.substituteU [] unionEx 3).1.templates.map nodesQ
      = unionEx.templates.map nodesQ) := by
  refine ⟨by decide, by decide⟩

/-! ## Claim C9 -/

/-- Counterexample to C9 as stated: with three accepted formulas the driver
produces Conj(phi2, Conj(phi1, phi3)), not the insertion-ordered
right-associated Conj(phi1, Conj(phi2, phi3)). -/
theorem driver_conjoin_not_insertion_order :
    driverConjoin [.atom 0, .atom 1, .atom 2]
      = some (.conj (.atom 1) (.conj (.atom 0) (.atom 2))) ∧
    driverConjoin [.atom 0, .atom 1, .atom 2]
      ≠ some (.conj (.atom 0) (.conj (.atom 1) (.atom 2))) := by
  refine ⟨by decide, by decide⟩

/-- Claim C9 (amended): with n >= 1 accepted formulas the final
axiomatization is the right-associated conjunction whose last conjunct is
the final formula and whose earlier conjuncts are the first n-1 formulas in
reverse insertion order. -/
theorem driver_conjoin_reversed_prefix (l : List ModalFormula) (h : l ≠ []) :
    driverConjoin l =
      some ((l.dropLast.reverse).foldr (fun f acc => .conj f acc) (l.getLast h)) := by
  unfold driverConjoin
  rw [List.getLast?_eq_getLast l h]
  rw [List.foldr_reverse]

/-- Witness for the amended C9. -/
theorem driver_conjoin_reversed_prefix_witness :
    ([ModalFormula.atom 0, .atom 1] ≠ []) ∧
      driverConjoin [ModalFormula.atom 0, .atom 1] =
        some (([ModalFormula.atom 0, .atom 1].dropLast.reverse).foldr
          (fun f acc => .conj f acc)
          ([ModalFormula.atom 0, .atom 1].getLast (by decide))) :=
  ⟨by decide, driver_conjoin_reversed_prefix [ModalFormula.atom 0, .atom 1] (by decide)⟩

/-! ## Claim C10 -/

theorem freeVarsF_foldl_all (l : List Variable) :
    ∀ f : FOFormula,
      freeVarsF (l.foldl (fun acc v => .all v acc) f) = freeVarsF f \ l.toFinset := by
  induction l with
  | nil => intro f; simp
  | cons v vs ih =>
    intro f
    simp only [List.foldl_cons, ih, freeVarsF, List.toFinset_cons]
    ext w
    simp only [Finset.mem_sdiff, Finset.mem_insert, Finset.mem_singleton, not_or]
    tauto

mutual
theorem freeVarsListT_toFinset :
    ∀ t : FOTerm, (freeVarsListT t).toFinset = freeVarsT t
  | .var v => by simp [freeVarsListT, freeVarsT]
  | .app f args => by
    simp only [freeVarsListT, freeVarsT]
    exact freeVarsListTL_toFinset args

theorem freeVarsListTL_toFinset :
    ∀ ts : FOTermList, (freeVarsListTL ts).toFinset = freeVarsTL ts
  | .nil => by simp [freeVarsListTL, freeVarsTL]
  | .cons t ts => by
    simp only [freeVarsListTL, freeVarsTL, List.toFinset_union]
    rw [freeVarsListT_toFinset t, freeVarsListTL_toFinset ts]
end

theorem freeVarsListF_toFinset (φ : FOFormula) :
    (freeVarsListF φ).toFinset = freeVarsF φ := by
  induction φ with
  | verum => simp [freeVarsListF, freeVarsF]
  | falsum => simp [freeVarsListF, freeVarsF]
  | rel r args => exact freeVarsListTL_toFinset args
  | conj l r ihl ihr => simp [freeVarsListF, freeVarsF, List.toFinset_union, ihl, ihr]
  | disj l r ihl ihr => simp [freeVarsListF, freeVarsF, List.toFinset_union, ihl, ihr]
  | neg f ih => exact ih
  | impl l r ihl ihr => simp [freeVarsListF, freeVarsF, List.toFinset_union, ihl, ihr]
  | equiv l r ihl ihr => simp [freeVarsListF, freeVarsF, List.toFinset_union, ihl, ihr]
  | all x body ih =>
    simp only [freeVarsListF, freeVarsF]
    ext w
    simp only [List.mem_toFinset, List.mem_filter, Finset.mem_sdiff,
      Finset.mem_singleton, ← ih, decide_eq_true_eq]
  | ex x body ih =>
    simp only [freeVarsListF, freeVarsF]
    ext w
    simp only [List.mem_toFinset, List.mem_filter, Finset.mem_sdiff,
      Finset.mem_singleton, ← ih, decide_eq_true_eq]

/-- Claim C10: quantify_all_free_variables returns a closed formula — the
free-variable set of the result is empty. -/
theorem quantify_all_free_variables_closed (φ : FOFormula) :
    freeVarsF (quantifyAllFreeVariables φ) = ∅ := by
  unfold quantifyAllFreeVariables
  rw [freeVarsF_foldl_all, freeVarsListF_toFinset]
  simp
